import Mathlib

/-!
# Shallow embedding of `backend/tasks/scoring.py` (Task-analyzer)

Python conventions modelled explicitly:
* Python `float` arithmetic is modelled exactly over `ℚ` (the constants
  0.4, 0.3, ... are exact decimals; no claim below depends on binary
  floating-point rounding artifacts).
* A task record is an open dict; the optional fields the module reads are
  modelled as sum types distinguishing *key absent*, *value None*, and the
  value kinds the module can receive (int / str / date / number).
* Python dicts are insertion-ordered; they are modelled as association
  lists where an update of an existing key keeps its position and a new
  key is appended at the end.
* A Python statement that raises (e.g. `str <= int` comparison, or
  subtracting `today` from a non-date) is modelled with `Except Unit`.
-/

namespace TaskAnalyzer

/-- Structural decidable equality for `Except` results (used to evaluate
the embedding at concrete inputs). -/
instance {ε α : Type} [DecidableEq ε] [DecidableEq α] : DecidableEq (Except ε α)
  | .ok a, .ok b =>
    if h : a = b then isTrue (by rw [h])
    else isFalse (by intro hh; cases hh; exact h rfl)
  | .error a, .error b =>
    if h : a = b then isTrue (by rw [h])
    else isFalse (by intro hh; cases hh; exact h rfl)
  | .ok _, .error _ => isFalse (by intro h; cases h)
  | .error _, .ok _ => isFalse (by intro h; cases h)

/-- The value found under the `"importance"` key of a task dict:
key absent, value `None`, a Python int, or a string. -/
inductive PImp where
  | pMissing : PImp
  | pNone    : PImp
  | pInt     : Int → PImp
  | pStr     : String → PImp
deriving DecidableEq, Repr

/-- The value found under `"due_date"`: absent/None, a calendar date
(represented by its day number, so that `d₁ - d₂` is the day difference),
or a non-date value (a string).  `safe_days_until_due` treats a *falsy*
value (None, `""`) as "no date"; a truthy non-date raises on subtraction. -/
inductive PDate where
  | pdNone : PDate
  | pdDate : Int → PDate
  | pdBad  : String → PDate
deriving DecidableEq, Repr

/-- The value found under `"estimated_hours"`: absent/None, a number,
or a non-numeric value (a string), which raises on `hours <= 0`. -/
inductive PHours where
  | phNone : PHours
  | phNum  : ℚ → PHours
  | phBad  : String → PHours
deriving DecidableEq, Repr

/-- A task record: the fields `scoring.py` reads.  `internal_id` models the
`"_internal_id"` key injected by `build_dependency_graph` (absent = `none`).
`dependencies` distinguishes an absent/None key (`none`) from a present
list; the module coerces each entry with `str`, so entries are strings. -/
structure Task where
  id : Option String
  importance : PImp
  due_date : PDate
  estimated_hours : PHours
  dependencies : Option (List String)
  internal_id : Option String := none
deriving DecidableEq, Repr

/-- A weights dict: insertion-ordered association list (may contain keys
other than the four the formula reads, and may be empty). -/
abbrev Weights := List (String × ℚ)

/-- `dataclass ScoredTask`. -/
structure ScoredTask where
  task : Task
  score : ℚ
  strategy : String
  explanation : String
  has_cycle : Bool
deriving DecidableEq, Repr

/-- The output record of `analyze_tasks`: the (shallow-copied) task dict
with `"_internal_id"` popped, plus the four appended keys. -/
structure OutRec where
  task : Task
  score : ℚ
  strategy_used : String
  explanation : String
  has_cycle : Bool
deriving DecidableEq, Repr

/-! ## Configuration -/

def SMART_WEIGHTS : Weights :=
  [("importance", 0.4), ("urgency", 0.3), ("effort", 0.2), ("dependencies", 0.1)]

def FASTEST_WINS_WEIGHT_EFFORT : ℚ := 0.7
def FASTEST_WINS_WEIGHT_URGENCY : ℚ := 0.2
def FASTEST_WINS_WEIGHT_IMPORTANCE : ℚ := 0.1

def DEADLINE_DRIVEN_WEIGHT_URGENCY : ℚ := 0.7
def DEADLINE_DRIVEN_WEIGHT_IMPORTANCE : ℚ := 0.3

def HIGH_IMPACT_WEIGHT_IMPORTANCE : ℚ := 1.0

/-! ## Helper functions -/

/-- `clamp(value, minimum, maximum) = max(minimum, min(value, maximum))`. -/
def clamp (value minimum maximum : ℚ) : ℚ :=
  max minimum (min value maximum)

/-- Python's `round(x, 2)`.  (CPython rounds the nearest binary double
half-to-even; the difference to `round` over ℚ only surfaces at exact
.005 ties, which no claim exercises.) -/
def pyRound2 (q : ℚ) : ℚ :=
  (round (q * 100) : ℚ) / 100

/-- Rendering of a Python number inside an f-string.  The exact textual
format of CPython float `repr` is immaterial to every claim (no claim
equates these substrings), so `toString` over ℚ is used. -/
def pyNumStr (q : ℚ) : String := toString q

/-- `safe_days_until_due`: `None` for a falsy `d` (None or `""`), the day
difference for a date, and a `TypeError` for a truthy non-date (the
subtraction `d - today` fails). -/
def safe_days_until_due (d : PDate) (today : Int) : Except Unit (Option Int) :=
  match d with
  | .pdNone => .ok none
  | .pdBad s => if s = "" then .ok none else .error ()
  | .pdDate dd => .ok (some (dd - today))

/-- `compute_urgency_score`: maps days until due into 0–10 urgency. -/
def compute_urgency_score (due : PDate) (today : Int) : Except Unit (ℚ × String) := do
  let daysOpt ← safe_days_until_due due today
  match daysOpt with
  | none => return (5.0, "neutral urgency (no due date)")
  | some days =>
    if days < 0 then
      -- Cap at -7 days to avoid runaway scores
      let days_capped : Int := max days (-7)
      let urgency := clamp (10 + (days_capped : ℚ)) 7 10
      return (urgency, "overdue by " ++ toString (-days) ++ " days")
    else
      let raw : ℚ := 10 - (days : ℚ)
      let urgency := clamp raw 0 10
      let reason :=
        if days = 0 then "due today"
        else if days ≤ 3 then "due soon (in " ++ toString days ++ " days)"
        else "due in " ++ toString days ++ " days"
      return (urgency, reason)

/-- `compute_effort_score`: higher score for lower effort.  A non-numeric
`hours` raises a `TypeError` at the comparison `hours <= 0`. -/
def compute_effort_score (hours : PHours) : Except Unit (ℚ × String) :=
  match hours with
  | .phNone => .ok (6.0, "unknown effort (assumed medium)")
  | .phBad _ => .error ()
  | .phNum h =>
    if h ≤ 0 then .ok (6.0, "unknown effort (assumed medium)")
    else if h ≤ 1 then .ok (10.0, "very low effort (~" ++ pyNumStr h ++ "h)")
    else if h ≤ 3 then .ok (8.0, "low effort (~" ++ pyNumStr h ++ "h)")
    else if h ≤ 6 then .ok (6.0, "medium effort (~" ++ pyNumStr h ++ "h)")
    else if h ≤ 10 then .ok (4.0, "high effort (~" ++ pyNumStr h ++ "h)")
    else .ok (2.0, "very high effort (~" ++ pyNumStr h ++ "h)")

/-- `int(importance)`: succeeds on an int, and on a string that parses as
an integer; `None` / a non-numeric string raise (caught by the caller). -/
def intCoercion (imp : PImp) : Option Int :=
  match imp with
  | .pInt n => some n
  | .pStr s => s.toInt?
  | .pNone => none
  | .pMissing => none

/-- `normalize_importance`: coercion failure → default 5, else clamp to
[1, 10] (integer min/max, mirroring `int(clamp(value, 1, 10))`). -/
def normalize_importance (importance : PImp) : Int :=
  match intCoercion importance with
  | none => 5
  | some value => max 1 (min value 10)

/-! ## Python dicts as insertion-ordered association lists -/

/-- `d[k] = v` on a Python dict: replace in place if the key exists
(keeping its position), else append the new key at the end. -/
def dictSet {α : Type} (l : List (String × α)) (k : String) (v : α) :
    List (String × α) :=
  if l.any (fun p => p.1 = k) then
    l.map (fun p => if p.1 = k then (k, v) else p)
  else
    l ++ [(k, v)]

/-- `d.get(k, default)`. -/
def dictGetD {α : Type} (l : List (String × α)) (k : String) (default : α) : α :=
  match l.lookup k with
  | some v => v
  | none => default

/-! ## Dependency graph -/

/-- The id assigned by the first loop of `build_dependency_graph`:
`task.get("id") or str(idx)` (a falsy id — absent or `""` — falls back to
the stringified zero-based index). -/
def assignId (idx : Nat) (t : Task) : String :=
  match t.id with
  | some s => if s = "" then toString idx else s
  | none => toString idx

/-- The first loop's mutation: `task["_internal_id"] = task_id` on every
task dict of the caller's list, in input order. -/
def mutateTasks (tasks : List Task) : List Task :=
  tasks.enum.map (fun p => { p.2 with internal_id := some (assignId p.1 p.2) })

/-- `task["_internal_id"]` read by the second loop (always set by the
first loop; the `""` default is unreachable there). -/
def iid (t : Task) : String := (t.internal_id).getD ""

/-- `task.get("dependencies") or []` followed by `str` coercion of each
entry (entries are modelled as the already-coerced strings). -/
def effDeps (t : Task) : List String := (t.dependencies).getD []

/-- `build_dependency_graph`: returns the adjacency dict, the
dependents-count dict, and the (mutated) task list. -/
def build_dependency_graph (tasks : List Task) :
    List (String × List String) × List (String × Nat) × List Task :=
  let tasks' := mutateTasks tasks
  -- First assign ids (and seed both dicts with empty entries)
  let seeded := tasks'.foldl
    (fun (gc : List (String × List String) × List (String × Nat)) t =>
      (dictSet gc.1 (iid t) [], dictSet gc.2 (iid t) 0))
    ([], [])
  -- Fill deps and reverse counts
  let filled := tasks'.foldl
    (fun (gc : List (String × List String) × List (String × Nat)) t =>
      let g := dictSet gc.1 (iid t) (effDeps t)
      let c := (effDeps t).foldl
        (fun c' d => dictSet c' d (dictGetD c' d 0 + 1)) gc.2
      (g, c))
    seeded
  (filled.1, filled.2, tasks')

/-! ## Cycle detection -/

/-- `graph.get(node, [])`. -/
def adj (g : List (String × List String)) (n : String) : List String :=
  dictGetD g n []

/-- The mutable state of the DFS: `visited`, `on_stack`, `in_cycle`
(the Python sets, as lists queried only through membership). -/
structure DfsState where
  visited : List String
  onStack : List String
  inCycle : List String
deriving DecidableEq, Repr

/-- The body of the neighbor loop of `dfs`: visit an unvisited neighbor
recursively (`rec` is the recursive call at the remaining fuel), and mark
the two endpoints of a back-edge to a neighbor still on the stack. -/
def dfsStep (rec : String → DfsState → DfsState) (node : String)
    (acc : DfsState) (neigh : String) : DfsState :=
  if neigh ∈ acc.visited then
    if neigh ∈ acc.onStack then
      -- Mark cycle nodes (approximate: mark current and neighbor)
      { acc with inCycle := node :: neigh :: acc.inCycle }
    else acc
  else rec neigh acc

/-- The recursive `dfs` of `detect_cycles`.  The `fuel` argument is an
artifact of the embedding: recursion depth is bounded by the number of
distinct nodes, and `detect_cycles` supplies enough fuel for the bound
(the lemmas below carry the sufficiency hypothesis explicitly). -/
def dfs (g : List (String × List String)) :
    Nat → String → DfsState → DfsState
  | 0, _, s => s
  | fuel + 1, node, s =>
    if node ∈ s.visited then s
    else
      let s1 : DfsState := ⟨node :: s.visited, node :: s.onStack, s.inCycle⟩
      let s2 := (adj g node).foldl (dfsStep (dfs g fuel) node) s1
      { s2 with onStack := s2.onStack.erase node }

/-- All node names the DFS can ever touch: the keys plus every declared
dependency id. -/
def univ (g : List (String × List String)) : List String :=
  g.map Prod.fst ++ (g.map Prod.snd).flatten

/-- `detect_cycles`: DFS from every unvisited key, in key order. -/
def detect_cycles (g : List (String × List String)) : List String :=
  let fuel := (univ g).length + 1
  ((g.map Prod.fst).foldl
    (fun s node => if node ∈ s.visited then s else dfs g fuel node s)
    ⟨[], [], []⟩).inCycle

/-! ## Strategy scoring functions -/

def score_fastest_wins (importance urgency effort : ℚ) : ℚ :=
  FASTEST_WINS_WEIGHT_EFFORT * effort
    + FASTEST_WINS_WEIGHT_URGENCY * urgency
    + FASTEST_WINS_WEIGHT_IMPORTANCE * importance

def score_deadline_driven (importance urgency : ℚ) : ℚ :=
  DEADLINE_DRIVEN_WEIGHT_URGENCY * urgency
    + DEADLINE_DRIVEN_WEIGHT_IMPORTANCE * importance

def score_high_impact (importance : ℚ) : ℚ :=
  HIGH_IMPACT_WEIGHT_IMPORTANCE * importance

/-- `score_smart_balance` with `weights=None` as `none`.  `weights or
SMART_WEIGHTS` falls back to the defaults when `weights` is falsy
(`None` or the empty dict). -/
def score_smart_balance (importance urgency effort : ℚ) (blocks : Nat)
    (weights : Option Weights) : ℚ :=
  let w := match weights with
    | none => SMART_WEIGHTS
    | some l => if l = [] then SMART_WEIGHTS else l
  dictGetD w "importance" 0.0 * importance
    + dictGetD w "urgency" 0.0 * urgency
    + dictGetD w "effort" 0.0 * effort
    + dictGetD w "dependencies" 0.0 * (blocks : ℚ)

/-! ## Public API -/

/-- The explanation phrase list assembled by `score_task` (the joined
string is `String.intercalate "; "` of this list). -/
def explanationBits (strategyLead : String) (importance : ℚ)
    (urgency_reason effort_reason : String) (blocks : Nat)
    (cycle_flag : Bool) : List String :=
  [strategyLead,
   "importance " ++ pyNumStr importance ++ "/10",
   "urgency because it is " ++ urgency_reason,
   effort_reason]
  ++ (if blocks > 0 then ["unblocks " ++ toString blocks ++ " other task(s)"] else [])
  ++ (if cycle_flag then ["involved in a circular dependency"] else [])

/-- `score_task`: score and explanation for one task under a strategy. -/
def score_task (task : Task) (strategy : String)
    (dependents_count : List (String × Nat)) (weights : Option Weights)
    (in_cycle : Option (List String)) (today : Int) :
    Except Unit ScoredTask := do
  let task_id := task.internal_id
  let importance : ℚ := (normalize_importance task.importance : ℤ)
  let (urgency, urgency_reason) ← compute_urgency_score task.due_date today
  let (effort, effort_reason) ← compute_effort_score task.estimated_hours
  let blocks : Nat := match task_id with
    | some i => dictGetD dependents_count i 0
    | none => 0
  let (score, lead) :=
    if strategy = "fastest_wins" then
      (score_fastest_wins importance urgency effort,
       "prioritized quick wins (low effort)")
    else if strategy = "high_impact" then
      (score_high_impact importance, "prioritized high importance")
    else if strategy = "deadline_driven" then
      (score_deadline_driven importance urgency, "prioritized close deadlines")
    else  -- smart_balance (default)
      (score_smart_balance importance urgency effort blocks weights,
       "balanced importance, urgency, effort, and dependencies")
  let cycle_flag : Bool := match in_cycle with
    | some l => match task_id with
      | some i => decide (i ∈ l)
      | none => false
    | none => false
  return { task := task
           score := pyRound2 score
           strategy := strategy
           explanation := String.intercalate "; "
             (explanationBits lead importance urgency_reason effort_reason
               blocks cycle_flag)
           has_cycle := cycle_flag }

/-! ## The sort

`scored.sort(key=lambda st: (st.score, st.task.get("importance", 0)),
reverse=True)` — a stable descending sort on the key pair.  Tuple
comparison first tests `==` componentwise and calls `<` on the first
unequal components, raising `TypeError` on unorderable raw importance
values.  On success the stable descending order is unique, so the
insertion sort below agrees with CPython's Timsort on every batch it
accepts. -/

/-- `st.task.get("importance", 0)`. -/
def sortKeyImp (imp : PImp) : PImp :=
  match imp with
  | .pMissing => .pInt 0
  | x => x

/-- Python three-way comparison of two raw importance values:
same-kind values compare normally, `None == None`, and any other mixed
pair raises `TypeError`. -/
def pyCmpImp : PImp → PImp → Except Unit Ordering
  | .pInt m, .pInt n =>
    .ok (if m < n then .lt else if n < m then .gt else .eq)
  | .pStr s, .pStr t =>
    .ok (if s < t then .lt else if t < s then .gt else .eq)
  | .pNone, .pNone => .ok .eq
  | _, _ => .error ()

/-- The sort key of a `ScoredTask`:
`(st.score, st.task.get("importance", 0))`. -/
def skey (st : ScoredTask) : ℚ × PImp :=
  (st.score, sortKeyImp st.task.importance)

/-- The same key read off an output record (whose `score` and raw
`importance` fields are those of the scored task it came from). -/
def outKey (r : OutRec) : ℚ × PImp :=
  (r.score, sortKeyImp r.task.importance)

/-- Python tuple comparison of two sort keys: equal first components
step to the second, unequal ℚ components decide, unorderable raw
importance values raise. -/
def cmpPair (k1 k2 : ℚ × PImp) : Except Unit Ordering :=
  if k1.1 < k2.1 then .ok .lt
  else if k2.1 < k1.1 then .ok .gt
  else pyCmpImp k1.2 k2.2

/-- Comparison of two scored tasks by their sort keys. -/
def cmpKey (a b : ScoredTask) : Except Unit Ordering :=
  cmpPair (skey a) (skey b)

/-- "Sorts no later than" for the descending sort: strictly greater key,
or equal key. -/
def keyGe (k1 k2 : ℚ × PImp) : Prop :=
  cmpPair k1 k2 = .ok .gt ∨ cmpPair k1 k2 = .ok .eq

/-- Insert into a descending-sorted list, before the first element the
new one is ≥ (the new element comes first among equals, preserving the
input order of the fold below). -/
def pyInsert (x : ScoredTask) : List ScoredTask → Except Unit (List ScoredTask)
  | [] => .ok [x]
  | y :: ys =>
    match cmpKey x y with
    | .error e => .error e
    | .ok .lt => (pyInsert x ys).map (fun zs => y :: zs)
    | .ok _ => .ok (x :: y :: ys)

/-- Stable descending sort. -/
def pySort : List ScoredTask → Except Unit (List ScoredTask)
  | [] => .ok []
  | x :: xs => do pyInsert x (← pySort xs)

/-- `dict(st.task)` + `pop("_internal_id")` + the four appended keys. -/
def toOut (st : ScoredTask) : OutRec :=
  { task := { st.task with internal_id := none }
    score := st.score
    strategy_used := st.strategy
    explanation := st.explanation
    has_cycle := st.has_cycle }

/-- The `for task in tasks: scored.append(...)` loop: each element is
scored in order and the first raise aborts the call. -/
def mapExcept {α β : Type} (f : α → Except Unit β) :
    List α → Except Unit (List β)
  | [] => .ok []
  | x :: xs => do
    let y ← f x
    let ys ← mapExcept f xs
    return y :: ys

/-- The scored list in input order (the state of `scored` just before the
`sort` call in `analyze_tasks`). -/
def preScored (tasks : List Task) (strategy : String)
    (weights : Option Weights) (today : Int) :
    Except Unit (List ScoredTask) :=
  let b := build_dependency_graph tasks
  let cycle_nodes := detect_cycles b.1
  mapExcept
    (fun t => score_task t strategy b.2.1 weights (some cycle_nodes) today)
    b.2.2

/-- `analyze_tasks`: scores, sorts and re-packages.  The second component
of the result is the caller's task list as the call leaves it (the
in-place `_internal_id` mutation). -/
def analyze_tasks (tasks : List Task) (strategy : String)
    (weights : Option Weights) (today : Int) :
    Except Unit (List OutRec × List Task) := do
  if tasks = [] then
    return ([], tasks)
  else
    let scored ← preScored tasks strategy weights today
    let sorted ← pySort scored
    return (sorted.map toOut, (build_dependency_graph tasks).2.2)

/-! ## Auxiliary definitions for the claims -/

/-- The ids assigned by the first loop of `build_dependency_graph`, in
input order. -/
def assignedIds (tasks : List Task) : List String :=
  tasks.enum.map (fun p => assignId p.1 p.2)

/-- The *effective* user-supplied id: `some s` exactly when the `id`
field is present and truthy (non-empty). -/
def userId (t : Task) : Option String :=
  match t.id with
  | some s => if s = "" then none else some s
  | none => none

/-- The number of `univ`-nodes not yet visited: the termination measure
justifying the fuel supplied by `detect_cycles`. -/
def unvisitedCount (g : List (String × List String)) (s : DfsState) : Nat :=
  ((univ g).filter (fun n => decide (¬ n ∈ s.visited))).length

/-- Numeric value of a decimal digit character (used only to prove that
`toString` on ℕ is injective, so that distinct positional fallback ids
are distinct strings). -/
def charVal (c : Char) : Nat := c.toNat - 48

/-- Value of a digit string continued from accumulator `a`. -/
def valFrom (a : Nat) (l : List Char) : Nat :=
  l.foldl (fun acc c => acc * 10 + charVal c) a

/-! ## A concrete batch (used to instantiate the theorems below) -/

/-- Example task (the repository's own test scenario): low importance. -/
def exLow : Task := ⟨some "low", .pInt 3, .pdDate 5, .phNum 2, some [], none⟩

/-- Example task: high importance. -/
def exHigh : Task := ⟨some "high", .pInt 9, .pdDate 5, .phNum 2, some [], none⟩

/-- `exLow` as mutated by `build_dependency_graph`. -/
def exMutLow : Task := { exLow with internal_id := some "low" }

/-- `exHigh` as mutated by `build_dependency_graph`. -/
def exMutHigh : Task := { exHigh with internal_id := some "high" }

/-- Expected output record for `exHigh` under `high_impact`, today = 0. -/
def exOutHigh : OutRec :=
  ⟨exHigh, 9, "high_impact",
   "prioritized high importance; importance 9/10; urgency because it is due in 5 days; low effort (~2h)",
   false⟩

/-- Expected output record for `exLow` under `high_impact`, today = 0. -/
def exOutLow : OutRec :=
  ⟨exLow, 3, "high_impact",
   "prioritized high importance; importance 3/10; urgency because it is due in 5 days; low effort (~2h)",
   false⟩

/-- Mutual-cycle example (claim C6): task `"a"` depends on `"b"` and
`"b"` depends on `"a"`. -/
def c6A : Task := ⟨some "a", .pMissing, .pdNone, .phNone, some ["b"], none⟩

def c6B : Task := ⟨some "b", .pMissing, .pdNone, .phNone, some ["a"], none⟩

/-- A third task re-using the id `"a"` (claim C6): its empty dependency
list overwrites `"a"`'s adjacency entry in the built graph. -/
def c6C : Task := ⟨some "a", .pMissing, .pdNone, .phNone, some [], none⟩

/-- Expected output record for `c6A` on the batch `[c6A, c6B]` under
`smart_balance`, today = 0 (score `0.4*5 + 0.3*5 + 0.2*6 + 0.1*1 = 4.8`). -/
def c6OutA : OutRec :=
  ⟨c6A, 24/5, "smart_balance",
   "balanced importance, urgency, effort, and dependencies; importance 5/10; urgency because it is neutral urgency (no due date); unknown effort (assumed medium); unblocks 1 other task(s); involved in a circular dependency",
   true⟩

/-- Expected output record for `c6B` on the batch `[c6A, c6B]`. -/
def c6OutB : OutRec :=
  ⟨c6B, 24/5, "smart_balance",
   "balanced importance, urgency, effort, and dependencies; importance 5/10; urgency because it is neutral urgency (no due date); unknown effort (assumed medium); unblocks 1 other task(s); involved in a circular dependency",
   true⟩

def c6MutA : Task := { c6A with internal_id := some "a" }

def c6MutB : Task := { c6B with internal_id := some "b" }

/-! ## Dictionary lemmas -/

theorem lookup_map_replace_self {α : Type} (l : List (String × α)) (k : String)
    (v : α) (h : l.any (fun p => p.1 = k) = true) :
    (l.map (fun p => if p.1 = k then (k, v) else p)).lookup k = some v := by
  induction l with
  | nil => simp at h
  | cons p l ih =>
    simp only [List.map_cons]
    by_cases hpk : p.1 = k
    · rw [if_pos hpk]
      simp [List.lookup]
    · rw [if_neg hpk]
      have hb : (k == p.1) = false := by
        simp only [beq_eq_false_iff_ne, ne_eq]
        exact fun he => hpk he.symm
      simp only [List.any_cons, Bool.or_eq_true, decide_eq_true_eq] at h
      rcases h with h | h
      · exact absurd h hpk
      · simp only [List.lookup, hb]
        exact ih h

theorem lookup_map_replace_ne {α : Type} (l : List (String × α)) (k k' : String)
    (v : α) (h : k' ≠ k) :
    (l.map (fun p => if p.1 = k then (k, v) else p)).lookup k' = l.lookup k' := by
  induction l with
  | nil => rfl
  | cons p l ih =>
    simp only [List.map_cons]
    by_cases hpk : p.1 = k
    · rw [if_pos hpk]
      have hb : (k' == k) = false := by simp [h]
      have hb' : (k' == p.1) = false := by
        subst hpk
        exact hb
      simp only [List.lookup, hb, hb']
      exact ih
    · rw [if_neg hpk]
      by_cases hkp : k' = p.1
      · have hb : (k' == p.1) = true := by simp [hkp]
        simp only [List.lookup, hb]
      · have hb : (k' == p.1) = false := by simp [hkp]
        simp only [List.lookup, hb]
        exact ih

theorem lookup_append_single {α : Type} (l : List (String × α)) (k k' : String)
    (v : α) (h : l.lookup k = none) :
    (l ++ [(k, v)]).lookup k' = if k' = k then some v else l.lookup k' := by
  induction l with
  | nil =>
    by_cases hk : k' = k
    · simp [List.lookup, hk]
    · have hb : (k' == k) = false := by simp [hk]
      simp [List.lookup, hb, hk]
  | cons p l ih =>
    by_cases hkp : k' = p.1
    · have hb : (k' == p.1) = true := by simp [hkp]
      have hkne : k' ≠ k := by
        intro he
        rw [he] at hkp
        have hbk : (k == p.1) = true := by simp [hkp]
        simp [List.lookup, hbk] at h
      simp only [List.cons_append, List.lookup, hb, if_neg hkne]
    · have hb : (k' == p.1) = false := by simp [hkp]
      have hlk : l.lookup k = none := by
        by_cases hkp2 : k = p.1
        · have hbk : (k == p.1) = true := by simp [hkp2]
          simp [List.lookup, hbk] at h
        · have hbk : (k == p.1) = false := by simp [hkp2]
          simpa [List.lookup, hbk] using h
      simp only [List.cons_append, List.lookup, hb]
      exact ih hlk

theorem any_key_eq_false_lookup {α : Type} (l : List (String × α)) (k : String)
    (h : l.any (fun p => p.1 = k) = false) : l.lookup k = none := by
  induction l with
  | nil => rfl
  | cons p l ih =>
    simp only [List.any_cons, Bool.or_eq_false_iff, decide_eq_false_iff_not] at h
    have hb : (k == p.1) = false := by
      simp only [beq_eq_false_iff_ne, ne_eq]
      exact fun he => h.1 he.symm
    simp only [List.lookup, hb]
    exact ih (by simpa using h.2)

theorem lookup_dictSet {α : Type} (l : List (String × α)) (k k' : String) (v : α) :
    (dictSet l k v).lookup k' = if k' = k then some v else l.lookup k' := by
  unfold dictSet
  by_cases hany : l.any (fun p => p.1 = k) = true
  · rw [if_pos hany]
    by_cases hk : k' = k
    · rw [if_pos hk, hk]
      exact lookup_map_replace_self l k v hany
    · rw [if_neg hk]
      exact lookup_map_replace_ne l k k' v hk
  · rw [if_neg hany]
    refine lookup_append_single l k k' v (any_key_eq_false_lookup l k ?_)
    simp only [Bool.not_eq_true] at hany
    exact hany

theorem dictGetD_dictSet {α : Type} (l : List (String × α)) (k k' : String)
    (v d : α) :
    dictGetD (dictSet l k v) k' d = if k' = k then v else dictGetD l k' d := by
  unfold dictGetD
  rw [lookup_dictSet]
  by_cases h : k' = k <;> simp [h]

/-! ## Dependents-count lemmas (claim C7) -/

theorem seeded_snd (ts' : List Task)
    (gc0 : List (String × List String) × List (String × Nat)) :
    (ts'.foldl
      (fun gc t => (dictSet gc.1 (iid t) [], dictSet gc.2 (iid t) 0)) gc0).2 =
    ts'.foldl (fun c t => dictSet c (iid t) 0) gc0.2 := by
  induction ts' generalizing gc0 with
  | nil => rfl
  | cons t ts ih => simp only [List.foldl_cons]; exact ih _

theorem filled_snd (ts' : List Task)
    (gc0 : List (String × List String) × List (String × Nat)) :
    (ts'.foldl
      (fun gc t =>
        (dictSet gc.1 (iid t) (effDeps t),
         (effDeps t).foldl (fun c' d => dictSet c' d (dictGetD c' d 0 + 1)) gc.2))
      gc0).2 =
    ts'.foldl
      (fun c t => (effDeps t).foldl
        (fun c' d => dictSet c' d (dictGetD c' d 0 + 1)) c) gc0.2 := by
  induction ts' generalizing gc0 with
  | nil => rfl
  | cons t ts ih => simp only [List.foldl_cons]; exact ih _

theorem seed_counts_zero (ts' : List Task) (c0 : List (String × Nat))
    (h : ∀ d, dictGetD c0 d 0 = 0) (d : String) :
    dictGetD (ts'.foldl (fun c t => dictSet c (iid t) 0) c0) d 0 = 0 := by
  induction ts' generalizing c0 with
  | nil => exact h d
  | cons t ts ih =>
    simp only [List.foldl_cons]
    refine ih _ (fun d' => ?_)
    rw [dictGetD_dictSet]
    by_cases hd : d' = iid t
    · simp [hd]
    · simp [hd, h d']

theorem incr_fold (deps : List String) (c : List (String × Nat)) (d : String) :
    dictGetD
      (deps.foldl (fun c' x => dictSet c' x (dictGetD c' x 0 + 1)) c) d 0 =
    dictGetD c d 0 + deps.count d := by
  induction deps generalizing c with
  | nil => simp
  | cons x deps ih =>
    simp only [List.foldl_cons]
    rw [ih]
    rw [dictGetD_dictSet]
    by_cases hd : d = x
    · subst hd
      simp [List.count_cons]
      omega
    · have : (x == d) = false := by
        simp only [beq_eq_false_iff_ne, ne_eq]
        exact fun he => hd he.symm
      simp [List.count_cons, hd, this]

theorem counts_fold (ts' : List Task) (c0 : List (String × Nat)) (d : String) :
    dictGetD
      (ts'.foldl
        (fun c t => (effDeps t).foldl
          (fun c' x => dictSet c' x (dictGetD c' x 0 + 1)) c) c0) d 0 =
    dictGetD c0 d 0 + (ts'.map (fun t => (effDeps t).count d)).sum := by
  induction ts' generalizing c0 with
  | nil => simp
  | cons t ts ih =>
    simp only [List.foldl_cons, List.map_cons, List.sum_cons]
    rw [ih, incr_fold]
    omega

theorem effDeps_mutate (tasks : List Task) :
    (mutateTasks tasks).map effDeps = tasks.map effDeps := by
  unfold mutateTasks
  rw [List.map_map]
  have : (effDeps ∘ fun p : Nat × Task =>
      { p.2 with internal_id := some (assignId p.1 p.2) }) =
      (fun p : Nat × Task => effDeps p.2) := by
    funext p
    rfl
  rw [this]
  have h2 : (fun p : Nat × Task => effDeps p.2) =
      (effDeps ∘ Prod.snd) := rfl
  rw [h2, ← List.map_map, List.enum_map_snd]

theorem build_counts_eq (tasks : List Task) (d : String) :
    dictGetD (build_dependency_graph tasks).2.1 d 0 =
      (tasks.map (fun t => (effDeps t).count d)).sum := by
  unfold build_dependency_graph
  simp only
  rw [filled_snd, seeded_snd, counts_fold]
  rw [seed_counts_zero (mutateTasks tasks) ([], ([] : List (String × Nat))).2
    (fun _ => rfl) d]
  have := congrArg (fun l => (l.map (fun ds : List String => ds.count d)).sum)
    (effDeps_mutate tasks)
  simp only [List.map_map] at this
  simpa using this

/-- **C7** — For every input batch, the dependents count of an id `d`
equals the number of dependency declarations of `d` across all tasks in
the batch (counted even when `d` names no task present in the input);
in particular, any task listing `d` forces `dependents_count[d] ≥ 1`. -/
theorem dependents_count_spec (tasks : List Task) (d : String) :
    dictGetD (build_dependency_graph tasks).2.1 d 0 =
      (tasks.map (fun t => (effDeps t).count d)).sum ∧
    (∀ t ∈ tasks, d ∈ effDeps t →
      1 ≤ dictGetD (build_dependency_graph tasks).2.1 d 0) := by
  refine ⟨build_counts_eq tasks d, fun t ht hd => ?_⟩
  rw [build_counts_eq tasks d]
  have hpos : 1 ≤ (effDeps t).count d := List.one_le_count_iff.mpr hd
  have hmem : (effDeps t).count d ∈
      tasks.map (fun t => (effDeps t).count d) :=
    List.mem_map.mpr ⟨t, ht, rfl⟩
  calc 1 ≤ (effDeps t).count d := hpos
    _ ≤ (tasks.map (fun t => (effDeps t).count d)).sum :=
        List.single_le_sum (fun _ _ => Nat.zero_le _) _ hmem

/-- **C7 witness** — concrete batch: task `a` lists `b`, task `b` lists
nothing; `dependents_count["b"] ≥ 1`. -/
theorem dependents_count_spec_witness :
    1 ≤ dictGetD
      (build_dependency_graph
        [⟨some "a", .pInt 5, .pdNone, .phNone, some ["b"], none⟩,
         ⟨some "b", .pInt 5, .pdNone, .phNone, some [], none⟩]).2.1 "b" 0 :=
  (dependents_count_spec
      [⟨some "a", .pInt 5, .pdNone, .phNone, some ["b"], none⟩,
       ⟨some "b", .pInt 5, .pdNone, .phNone, some [], none⟩] "b").2
    ⟨some "a", .pInt 5, .pdNone, .phNone, some ["b"], none⟩
    (by simp) (by simp [effDeps])

/-! ## Urgency lemmas (claim C3) -/

/-- **C3** — For every due date strictly before today, the urgency scorer
returns `clamp(10 + max(days_until, -7), 7, 10)`, which lies in `[7, 10]`,
with a reason reporting the true uncapped overdue day count; a task
overdue by 10 days and one overdue by 7 days get the same score but
different reasons. -/
theorem urgency_overdue (due today : Int) (h : due - today < 0) :
    compute_urgency_score (.pdDate due) today =
      .ok (clamp (10 + ((max (due - today) (-7) : Int) : ℚ)) 7 10,
           "overdue by " ++ toString (today - due) ++ " days") ∧
    7 ≤ clamp (10 + ((max (due - today) (-7) : Int) : ℚ)) 7 10 ∧
    clamp (10 + ((max (due - today) (-7) : Int) : ℚ)) 7 10 ≤ 10 ∧
    compute_urgency_score (.pdDate (-10)) 0 = .ok (7, "overdue by 10 days") ∧
    compute_urgency_score (.pdDate (-7)) 0 = .ok (7, "overdue by 7 days") ∧
    ("overdue by 10 days" : String) ≠ "overdue by 7 days" := by
  have h10 : compute_urgency_score (.pdDate (-10)) 0 =
      .ok (7, "overdue by 10 days") := by
    simp [compute_urgency_score, safe_days_until_due, bind, Except.bind, pure,
      Except.pure, clamp, max_def, min_def]
    exact ⟨by norm_num, by decide⟩
  have h7 : compute_urgency_score (.pdDate (-7)) 0 =
      .ok (7, "overdue by 7 days") := by
    simp [compute_urgency_score, safe_days_until_due, bind, Except.bind, pure,
      Except.pure, clamp, max_def, min_def]
    exact ⟨by norm_num, by decide⟩
  refine ⟨?_, ?_, ?_, h10, h7, by decide⟩
  · have hneg : -(due - today) = today - due := by ring
    simp only [compute_urgency_score, safe_days_until_due,
      bind, Except.bind, pure, Except.pure, if_pos h, hneg]
  · exact le_max_left _ _
  · exact max_le (by norm_num) (min_le_right _ _)

/-- **C3 witness** — instantiated at a task due 3 days before today. -/
theorem urgency_overdue_witness :
    ((-3 : Int) - 0 < 0) ∧
    compute_urgency_score (.pdDate (-3)) 0 =
      .ok (clamp (10 + ((max ((-3 : Int) - 0) (-7) : Int) : ℚ)) 7 10,
           "overdue by " ++ toString ((0 : Int) - (-3)) ++ " days") :=
  ⟨by decide, (urgency_overdue (-3) 0 (by decide)).1⟩

/-! ## Smart-balance weights (claim C4) -/

/-- **C4 counterexample** — with an *empty* caller-supplied weights
mapping, the code falls back to the default weights (`weights or
SMART_WEIGHTS`), so the score is 9 rather than the 0 the claim's
"missing keys default to 0.0" reading predicts. -/
theorem smart_balance_empty_weights_cex :
    score_smart_balance 10 10 10 0 (some []) = 9 ∧
    ¬ (score_smart_balance 10 10 10 0 (some []) =
        dictGetD ([] : Weights) "importance" 0.0 * 10 +
        dictGetD ([] : Weights) "urgency" 0.0 * 10 +
        dictGetD ([] : Weights) "effort" 0.0 * 10 +
        dictGetD ([] : Weights) "dependencies" 0.0 * (0 : Nat)) := by
  constructor
  · simp [score_smart_balance, SMART_WEIGHTS, dictGetD, List.lookup]
    norm_num
  · simp [score_smart_balance, SMART_WEIGHTS, dictGetD, List.lookup]
    norm_num

/-- **C4 (amended)** — for every *non-empty* weights mapping supplied by
the caller, the smart-balance score is the weighted sum in which each of
the four weights is the caller's value when its key is present and 0.0
when it is missing; an empty mapping (like an absent one) instead falls
back to the default weights. -/
theorem smart_balance_weights (i u e : ℚ) (b : Nat) (w : Weights)
    (hw : w ≠ []) :
    score_smart_balance i u e b (some w) =
      dictGetD w "importance" 0.0 * i + dictGetD w "urgency" 0.0 * u +
      dictGetD w "effort" 0.0 * e + dictGetD w "dependencies" 0.0 * (b : ℚ) := by
  unfold score_smart_balance
  simp [hw]

/-- **C4 witness** — caller overrides only `importance`. -/
theorem smart_balance_weights_witness :
    score_smart_balance 2 3 4 5 (some [("importance", 1)]) =
      dictGetD [("importance", (1 : ℚ))] "importance" 0.0 * 2 +
      dictGetD [("importance", (1 : ℚ))] "urgency" 0.0 * 3 +
      dictGetD [("importance", (1 : ℚ))] "effort" 0.0 * 4 +
      dictGetD [("importance", (1 : ℚ))] "dependencies" 0.0 * ((5 : Nat) : ℚ) :=
  smart_balance_weights 2 3 4 5 [("importance", 1)] (by decide)

/-! ## Injectivity of decimal rendering (for claim C5) -/

theorem valFrom_cons (a : Nat) (c : Char) (l : List Char) :
    valFrom a (c :: l) = valFrom (a * 10 + charVal c) l := rfl

theorem digitChar_val (k : Nat) (hk : k < 10) :
    charVal (Nat.digitChar k) = k := by
  interval_cases k <;> rfl

theorem valFrom_toDigitsCore :
    ∀ (f n : Nat) (l : List Char), n < f →
      valFrom 0 (Nat.toDigitsCore 10 f n l) = valFrom n l := by
  intro f
  induction f with
  | zero => intro n l h; omega
  | succ f ih =>
    intro n l h
    show valFrom 0
      (if n / 10 = 0 then Nat.digitChar (n % 10) :: l
       else Nat.toDigitsCore 10 f (n / 10) (Nat.digitChar (n % 10) :: l)) =
      valFrom n l
    by_cases h0 : n / 10 = 0
    · rw [if_pos h0, valFrom_cons, digitChar_val _ (Nat.mod_lt n (by norm_num))]
      have hn : n % 10 = n := Nat.mod_eq_of_lt (by omega)
      rw [hn]
      simp
    · rw [if_neg h0]
      have hlt : n / 10 < f := by
        have h1 : n / 10 < n := Nat.div_lt_self (by omega) (by norm_num)
        omega
      rw [ih (n / 10) _ hlt, valFrom_cons,
        digitChar_val _ (Nat.mod_lt n (by omega))]
      have : n / 10 * 10 + n % 10 = n := by omega
      rw [this]

theorem valFrom_toDigits (n : Nat) :
    valFrom 0 (Nat.toDigits 10 n) = n := by
  have := valFrom_toDigitsCore (n + 1) n [] (Nat.lt_succ_self n)
  simpa [Nat.toDigits, valFrom] using this

theorem natToString_inj (m n : Nat) (h : toString m = toString n) : m = n := by
  have hm : toString m = (Nat.toDigits 10 m).asString := rfl
  have hn : toString n = (Nat.toDigits 10 n).asString := rfl
  rw [hm, hn] at h
  have hd : Nat.toDigits 10 m = Nat.toDigits 10 n := by
    have := congrArg String.data h
    simpa [List.asString] using this
  calc m = valFrom 0 (Nat.toDigits 10 m) := (valFrom_toDigits m).symm
    _ = valFrom 0 (Nat.toDigits 10 n) := by rw [hd]
    _ = n := valFrom_toDigits n

/-! ## Internal id assignment (claim C5) -/

theorem assignId_eq_userId (i : Nat) (t : Task) :
    assignId i t = (userId t).getD (toString i) := by
  unfold assignId userId
  match t.id with
  | some s =>
    by_cases hs : s = "" <;> simp [hs]
  | none => simp

theorem assignedIds_length (tasks : List Task) :
    (assignedIds tasks).length = tasks.length := by
  simp [assignedIds]

/-- **C5 counterexample** — two tasks supplying the same id `"a"` are
both trusted verbatim, so the internal ids are not unique. -/
theorem internal_ids_unique_cex :
    assignedIds
      [⟨some "a", .pInt 1, .pdNone, .phNone, none, none⟩,
       ⟨some "a", .pInt 2, .pdNone, .phNone, none, none⟩] = ["a", "a"] ∧
    ¬ (assignedIds
      [⟨some "a", .pInt 1, .pdNone, .phNone, none, none⟩,
       ⟨some "a", .pInt 2, .pdNone, .phNone, none, none⟩]).Nodup := by
  constructor
  · rfl
  · intro h
    rw [show assignedIds
      [⟨some "a", .pInt 1, .pdNone, .phNone, none, none⟩,
       ⟨some "a", .pInt 2, .pdNone, .phNone, none, none⟩] = ["a", "a"] from rfl] at h
    simp at h

/-- **C5 (amended)** — every task is assigned exactly one internal id —
its own id field when present and non-empty, else the decimal string of
its zero-based input position — and these internal ids are unique within
the batch *provided* the user-supplied (non-empty) ids are pairwise
distinct and none of them equals the positional fallback id of a task
with a missing/empty id.  (Duplicate user-supplied ids are trusted
verbatim and break uniqueness, as the counterexample shows.) -/
theorem internal_ids_unique (tasks : List Task)
    (HU : ∀ i, i < tasks.length → ∀ j, j < tasks.length →
      ∀ (hi : i < tasks.length) (hj : j < tasks.length),
      userId tasks[i] = userId tasks[j] → userId tasks[i] ≠ none → i = j)
    (HF : ∀ i, i < tasks.length → ∀ j, j < tasks.length →
      ∀ (hi : i < tasks.length) (hj : j < tasks.length),
      userId tasks[j] = none → userId tasks[i] ≠ some (toString j)) :
    (assignedIds tasks).Nodup ∧
    ((build_dependency_graph tasks).2.2).map Task.internal_id =
      (assignedIds tasks).map some ∧
    (∀ i (hi : i < tasks.length) (hi2 : i < (assignedIds tasks).length),
      (assignedIds tasks).get ⟨i, hi2⟩ = (userId tasks[i]).getD (toString i)) := by
  have hget : ∀ i (hi2 : i < (assignedIds tasks).length),
      ∃ hi : i < tasks.length,
        (assignedIds tasks).get ⟨i, hi2⟩ = (userId tasks[i]).getD (toString i) := by
    intro i hi2
    have hi : i < tasks.length := by
      rw [assignedIds_length] at hi2
      exact hi2
    refine ⟨hi, ?_⟩
    unfold assignedIds
    rw [List.get_map]
    have he : tasks.enum.get ⟨i, by simpa using hi⟩ = (i, tasks[i]) := by
      have h2 := List.getElem_enum tasks i (by simpa using hi)
      rw [← h2]
      simp
    rw [he, ← assignId_eq_userId]
  refine ⟨?_, ?_, ?_⟩
  · rw [List.nodup_iff_injective_get]
    intro ⟨i, hi2⟩ ⟨j, hj2⟩ hij
    obtain ⟨hi, hvi⟩ := hget i hi2
    obtain ⟨hj, hvj⟩ := hget j hj2
    rw [hvi, hvj] at hij
    have hij' : (userId tasks[i]).getD (toString i) =
        (userId tasks[j]).getD (toString j) := hij
    have : i = j := by
      cases hui : userId tasks[i] with
      | some s =>
        cases huj : userId tasks[j] with
        | some s' =>
          rw [hui, huj] at hij'
          simp at hij'
          exact HU i hi j hj hi hj (by rw [hui, huj, hij']) (by simp [hui])
        | none =>
          rw [hui, huj] at hij'
          simp at hij'
          exact absurd (by rw [hui, hij']) (HF i hi j hj hi hj huj)
      | none =>
        cases huj : userId tasks[j] with
        | some s' =>
          rw [hui, huj] at hij'
          simp at hij'
          exact absurd (by rw [huj, ← hij']) (HF j hj i hi hj hi hui)
        | none =>
          rw [hui, huj] at hij'
          simp at hij'
          exact natToString_inj i j hij'
    exact Fin.ext this
  · show (mutateTasks tasks).map Task.internal_id = (assignedIds tasks).map some
    unfold mutateTasks assignedIds
    rw [List.map_map, List.map_map]
    rfl
  · intro i hi hi2
    obtain ⟨hi', hv⟩ := hget i hi2
    exact hv

/-- **C5 witness** — a two-task batch: one explicit id `"x"`, one
positional fallback; the hypotheses hold and the ids are unique. -/
theorem internal_ids_unique_witness :
    (assignedIds
      [⟨some "x", .pInt 1, .pdNone, .phNone, none, none⟩,
       ⟨none, .pInt 2, .pdNone, .phNone, none, none⟩]).Nodup :=
  (internal_ids_unique
    [⟨some "x", .pInt 1, .pdNone, .phNone, none, none⟩,
     ⟨none, .pInt 2, .pdNone, .phNone, none, none⟩]
    (by decide) (by decide)).1

/-! ## Comparator lemmas (claim C2) -/

theorem sortKeyImp_ne_missing (i : PImp) : sortKeyImp i ≠ .pMissing := by
  cases i <;> simp [sortKeyImp]

theorem impGe_int_iff (m n : Int) :
    (pyCmpImp (.pInt m) (.pInt n) = .ok .gt ∨
     pyCmpImp (.pInt m) (.pInt n) = .ok .eq) ↔ n ≤ m := by
  simp only [pyCmpImp]
  split_ifs with h1 h2 <;> simp <;> omega

theorem impGe_str_iff (s t : String) :
    (pyCmpImp (.pStr s) (.pStr t) = .ok .gt ∨
     pyCmpImp (.pStr s) (.pStr t) = .ok .eq) ↔ t ≤ s := by
  simp only [pyCmpImp]
  split_ifs with h1 h2
  · constructor
    · rintro (h | h) <;> exact absurd (Except.ok.inj h) (by decide)
    · intro h
      exact absurd h1 (not_lt.mpr h)
  · constructor
    · intro _
      exact le_of_lt h2
    · intro _
      exact Or.inl rfl
  · constructor
    · intro _
      exact not_lt.mp h1
    · intro _
      exact Or.inr rfl

theorem impEq_int_iff (m n : Int) :
    pyCmpImp (.pInt m) (.pInt n) = .ok .eq ↔ m = n := by
  simp only [pyCmpImp]
  split_ifs with h1 h2 <;> simp <;> omega

theorem impEq_str_iff (s t : String) :
    pyCmpImp (.pStr s) (.pStr t) = .ok .eq ↔ s = t := by
  simp only [pyCmpImp]
  split_ifs with h1 h2
  · constructor
    · intro h
      exact absurd (Except.ok.inj h) (by decide)
    · intro h
      exact absurd h1 (h ▸ lt_irrefl _)
  · constructor
    · intro h
      exact absurd (Except.ok.inj h) (by decide)
    · intro h
      exact absurd h2 (h ▸ lt_irrefl _)
  · constructor
    · intro _
      exact le_antisymm (not_lt.mp h2) (not_lt.mp h1)
    · intro _
      rfl

theorem pyCmpImp_eq_iff (x y : PImp) (hx : x ≠ .pMissing) :
    pyCmpImp x y = .ok .eq ↔ x = y := by
  cases x with
  | pMissing => exact absurd rfl hx
  | pNone => cases y <;> simp [pyCmpImp]
  | pInt m =>
    cases y with
    | pInt n => rw [impEq_int_iff]; simp
    | _ => simp [pyCmpImp]
  | pStr s =>
    cases y with
    | pStr t => rw [impEq_str_iff]; simp
    | _ => simp [pyCmpImp]

theorem pyCmpImp_swap (x y : PImp) :
    pyCmpImp y x = (pyCmpImp x y).map Ordering.swap := by
  cases x <;> cases y <;> simp only [pyCmpImp] <;> try rfl
  case pInt.pInt m n =>
    rcases lt_trichotomy m n with h | h | h
    · have h1 : ¬ n < m := lt_asymm h
      rw [if_neg h1, if_pos h, if_pos h]
      rfl
    · subst h
      rw [if_neg (lt_irrefl m), if_neg (lt_irrefl m)]
      rfl
    · have h1 : ¬ m < n := lt_asymm h
      rw [if_pos h, if_neg h1, if_pos h]
      rfl
  case pStr.pStr s t =>
    rcases lt_trichotomy s t with h | h | h
    · have h1 : ¬ t < s := lt_asymm h
      rw [if_neg h1, if_pos h, if_pos h]
      rfl
    · subst h
      rw [if_neg (lt_irrefl s), if_neg (lt_irrefl s)]
      rfl
    · have h1 : ¬ s < t := lt_asymm h
      rw [if_pos h, if_neg h1, if_pos h]
      rfl

theorem keyGe_iff (k1 k2 : ℚ × PImp) :
    keyGe k1 k2 ↔
      (k2.1 < k1.1 ∨ (k1.1 = k2.1 ∧
        (pyCmpImp k1.2 k2.2 = .ok .gt ∨ pyCmpImp k1.2 k2.2 = .ok .eq))) := by
  unfold keyGe cmpPair
  by_cases h1 : k1.1 < k2.1
  · simp only [if_pos h1]
    constructor
    · rintro (h | h) <;> simp at h
    · rintro (h | ⟨he, _⟩)
      · exact absurd (lt_trans h1 h) (lt_irrefl _)
      · exact absurd h1 (by rw [he]; exact lt_irrefl _)
  · by_cases h2 : k2.1 < k1.1
    · simp only [if_neg h1, if_pos h2]
      constructor
      · intro _; exact Or.inl h2
      · intro _; exact Or.inl (by trivial)
    · simp only [if_neg h1, if_neg h2]
      have he : k1.1 = k2.1 := le_antisymm (not_lt.mp h2) (not_lt.mp h1)
      constructor
      · intro h; exact Or.inr ⟨he, h⟩
      · rintro (h | ⟨_, h⟩)
        · exact absurd h h2
        · exact h

theorem impGe_trans {x y z : PImp}
    (h1 : pyCmpImp x y = .ok .gt ∨ pyCmpImp x y = .ok .eq)
    (h2 : pyCmpImp y z = .ok .gt ∨ pyCmpImp y z = .ok .eq) :
    pyCmpImp x z = .ok .gt ∨ pyCmpImp x z = .ok .eq := by
  cases x with
  | pMissing => rcases h1 with h | h <;> simp [pyCmpImp] at h
  | pNone =>
    cases y with
    | pNone =>
      cases z with
      | pNone => exact h2
      | pMissing => rcases h2 with h | h <;> simp [pyCmpImp] at h
      | pInt _ => rcases h2 with h | h <;> simp [pyCmpImp] at h
      | pStr _ => rcases h2 with h | h <;> simp [pyCmpImp] at h
    | pMissing => rcases h1 with h | h <;> simp [pyCmpImp] at h
    | pInt _ => rcases h1 with h | h <;> simp [pyCmpImp] at h
    | pStr _ => rcases h1 with h | h <;> simp [pyCmpImp] at h
  | pInt m =>
    cases y with
    | pInt n =>
      cases z with
      | pInt p =>
        rw [impGe_int_iff] at h1 h2 ⊢
        omega
      | pMissing => rcases h2 with h | h <;> simp [pyCmpImp] at h
      | pNone => rcases h2 with h | h <;> simp [pyCmpImp] at h
      | pStr _ => rcases h2 with h | h <;> simp [pyCmpImp] at h
    | pMissing => rcases h1 with h | h <;> simp [pyCmpImp] at h
    | pNone => rcases h1 with h | h <;> simp [pyCmpImp] at h
    | pStr _ => rcases h1 with h | h <;> simp [pyCmpImp] at h
  | pStr s =>
    cases y with
    | pStr t =>
      cases z with
      | pStr u =>
        rw [impGe_str_iff] at h1 h2 ⊢
        exact le_trans h2 h1
      | pMissing => rcases h2 with h | h <;> simp [pyCmpImp] at h
      | pNone => rcases h2 with h | h <;> simp [pyCmpImp] at h
      | pInt _ => rcases h2 with h | h <;> simp [pyCmpImp] at h
    | pMissing => rcases h1 with h | h <;> simp [pyCmpImp] at h
    | pNone => rcases h1 with h | h <;> simp [pyCmpImp] at h
    | pInt _ => rcases h1 with h | h <;> simp [pyCmpImp] at h

theorem keyGe_trans {a b c : ℚ × PImp}
    (h1 : keyGe a b) (h2 : keyGe b c) : keyGe a c := by
  rw [keyGe_iff] at h1 h2 ⊢
  rcases h1 with h1 | ⟨he1, hi1⟩
  · rcases h2 with h2 | ⟨he2, _⟩
    · exact Or.inl (lt_trans h2 h1)
    · exact Or.inl (he2 ▸ h1)
  · rcases h2 with h2 | ⟨he2, hi2⟩
    · exact Or.inl (he1 ▸ h2)
    · exact Or.inr ⟨he1.trans he2, impGe_trans hi1 hi2⟩

theorem cmpPair_lt_swap {k1 k2 : ℚ × PImp} (h : cmpPair k1 k2 = .ok .lt) :
    keyGe k2 k1 := by
  rw [keyGe_iff]
  unfold cmpPair at h
  by_cases h1 : k1.1 < k2.1
  · exact Or.inl h1
  · by_cases h2 : k2.1 < k1.1
    · rw [if_neg h1, if_pos h2] at h
      simp at h
    · rw [if_neg h1, if_neg h2] at h
      refine Or.inr ⟨le_antisymm (not_lt.mp h1) (not_lt.mp h2), ?_⟩
      rw [pyCmpImp_swap k1.2 k2.2, h]
      exact Or.inl rfl

theorem cmpKey_not_lt_keyGe {a b : ScoredTask} {o : Ordering}
    (h : cmpKey a b = .ok o) (ho : o ≠ .lt) : keyGe (skey a) (skey b) := by
  unfold cmpKey at h
  cases o with
  | lt => exact absurd rfl ho
  | gt => exact Or.inl h
  | eq => exact Or.inr h

theorem cmpPair_eq_iff_of_ne_missing {k1 k2 : ℚ × PImp}
    (h1 : k1.2 ≠ .pMissing) :
    cmpPair k1 k2 = .ok .eq ↔ k1 = k2 := by
  unfold cmpPair
  by_cases ha : k1.1 < k2.1
  · rw [if_pos ha]
    simp
    intro he
    exact absurd ha (by rw [he]; exact lt_irrefl _)
  · by_cases hb : k2.1 < k1.1
    · rw [if_neg ha, if_pos hb]
      simp
      intro he
      exact absurd hb (by rw [he]; exact lt_irrefl _)
    · rw [if_neg ha, if_neg hb]
      rw [pyCmpImp_eq_iff _ _ h1]
      have he : k1.1 = k2.1 := le_antisymm (not_lt.mp hb) (not_lt.mp ha)
      constructor
      · intro h
        exact Prod.ext he h
      · intro h
        rw [h]

/-! ## Insertion lemmas (claim C2) -/

theorem cmpPair_self_ne_lt (k : ℚ × PImp) : cmpPair k k ≠ .ok .lt := by
  unfold cmpPair
  rw [if_neg (lt_irrefl _), if_neg (lt_irrefl _)]
  cases h : k.2 <;> simp [pyCmpImp]

theorem pyInsert_mem {x : ScoredTask} :
    ∀ {s z : List ScoredTask}, pyInsert x s = .ok z →
      ∀ t, t ∈ z ↔ t = x ∨ t ∈ s := by
  intro s
  induction s with
  | nil =>
    intro z h t
    have hz : z = [x] := (Except.ok.inj h).symm
    subst hz
    simp
  | cons y ys ih =>
    intro z h t
    unfold pyInsert at h
    cases hc : cmpKey x y with
    | error e => rw [hc] at h; cases h
    | ok o =>
      rw [hc] at h
      cases o with
      | lt =>
        simp only at h
        cases hz : pyInsert x ys with
        | error e => rw [hz] at h; cases h
        | ok z' =>
          rw [hz] at h
          simp only [Except.map] at h
          have : z = y :: z' := (Except.ok.inj h).symm
          subst this
          have := ih hz t
          simp only [List.mem_cons, this]
          tauto
      | eq =>
        simp only at h
        have : z = x :: y :: ys := (Except.ok.inj h).symm
        subst this
        exact List.mem_cons
      | gt =>
        simp only at h
        have : z = x :: y :: ys := (Except.ok.inj h).symm
        subst this
        exact List.mem_cons

theorem pyInsert_pairwise {x : ScoredTask} :
    ∀ {s z : List ScoredTask},
      List.Pairwise (fun a b => keyGe (skey a) (skey b)) s →
      pyInsert x s = .ok z →
      List.Pairwise (fun a b => keyGe (skey a) (skey b)) z := by
  intro s
  induction s with
  | nil =>
    intro z _ h
    have hz : z = [x] := (Except.ok.inj h).symm
    subst hz
    simp
  | cons y ys ih =>
    intro z hp h
    rw [List.pairwise_cons] at hp
    obtain ⟨hy, hys⟩ := hp
    unfold pyInsert at h
    cases hc : cmpKey x y with
    | error e => rw [hc] at h; cases h
    | ok o =>
      rw [hc] at h
      cases o with
      | lt =>
        simp only at h
        cases hz : pyInsert x ys with
        | error e => rw [hz] at h; cases h
        | ok z' =>
          rw [hz] at h
          simp only [Except.map] at h
          have : z = y :: z' := (Except.ok.inj h).symm
          subst this
          rw [List.pairwise_cons]
          constructor
          · intro t ht
            rcases (pyInsert_mem hz t).mp ht with rfl | ht'
            · exact cmpPair_lt_swap hc
            · exact hy t ht'
          · exact ih hys hz
      | eq =>
        simp only at h
        have : z = x :: y :: ys := (Except.ok.inj h).symm
        subst this
        rw [List.pairwise_cons]
        constructor
        · intro t ht
          rcases List.mem_cons.mp ht with rfl | ht'
          · exact cmpKey_not_lt_keyGe hc (by decide)
          · exact keyGe_trans (cmpKey_not_lt_keyGe hc (by decide)) (hy t ht')
        · rw [List.pairwise_cons]
          exact ⟨hy, hys⟩
      | gt =>
        simp only at h
        have : z = x :: y :: ys := (Except.ok.inj h).symm
        subst this
        rw [List.pairwise_cons]
        constructor
        · intro t ht
          rcases List.mem_cons.mp ht with rfl | ht'
          · exact cmpKey_not_lt_keyGe hc (by decide)
          · exact keyGe_trans (cmpKey_not_lt_keyGe hc (by decide)) (hy t ht')
        · rw [List.pairwise_cons]
          exact ⟨hy, hys⟩

theorem pyInsert_filter_self {x : ScoredTask} :
    ∀ {s z : List ScoredTask}, pyInsert x s = .ok z →
      z.filter (fun t => skey t = skey x) =
        x :: s.filter (fun t => skey t = skey x) := by
  intro s
  induction s with
  | nil =>
    intro z h
    have hz : z = [x] := (Except.ok.inj h).symm
    subst hz
    simp
  | cons y ys ih =>
    intro z h
    unfold pyInsert at h
    cases hc : cmpKey x y with
    | error e => rw [hc] at h; cases h
    | ok o =>
      rw [hc] at h
      cases o with
      | lt =>
        simp only at h
        cases hz : pyInsert x ys with
        | error e => rw [hz] at h; cases h
        | ok z' =>
          rw [hz] at h
          simp only [Except.map] at h
          have : z = y :: z' := (Except.ok.inj h).symm
          subst this
          have hne : ¬ (skey y = skey x) := by
            intro he
            unfold cmpKey at hc
            rw [he] at hc
            exact cmpPair_self_ne_lt _ hc
          simp only [List.filter_cons]
          rw [if_neg (by simpa using hne), if_neg (by simpa using hne)]
          exact ih hz
      | eq =>
        simp only at h
        have : z = x :: y :: ys := (Except.ok.inj h).symm
        subst this
        simp only [List.filter_cons]
        rw [if_pos (by simp)]
      | gt =>
        simp only at h
        have : z = x :: y :: ys := (Except.ok.inj h).symm
        subst this
        simp only [List.filter_cons]
        rw [if_pos (by simp)]

theorem pyInsert_filter_ne {x : ScoredTask} {k : ℚ × PImp}
    (hk : ¬ (k = skey x)) :
    ∀ {s z : List ScoredTask}, pyInsert x s = .ok z →
      z.filter (fun t => skey t = k) = s.filter (fun t => skey t = k) := by
  intro s
  induction s with
  | nil =>
    intro z h
    have hz : z = [x] := (Except.ok.inj h).symm
    subst hz
    simp only [List.filter_cons]
    rw [if_neg (by simpa using fun he => hk he.symm)]
  | cons y ys ih =>
    intro z h
    unfold pyInsert at h
    cases hc : cmpKey x y with
    | error e => rw [hc] at h; cases h
    | ok o =>
      rw [hc] at h
      cases o with
      | lt =>
        simp only at h
        cases hz : pyInsert x ys with
        | error e => rw [hz] at h; cases h
        | ok z' =>
          rw [hz] at h
          simp only [Except.map] at h
          have : z = y :: z' := (Except.ok.inj h).symm
          subst this
          simp only [List.filter_cons]
          rw [ih hz]
      | eq =>
        simp only at h
        have : z = x :: y :: ys := (Except.ok.inj h).symm
        subst this
        simp only [List.filter_cons]
        rw [if_neg (by simpa using fun he => hk he.symm)]
      | gt =>
        simp only at h
        have : z = x :: y :: ys := (Except.ok.inj h).symm
        subst this
        simp only [List.filter_cons]
        rw [if_neg (by simpa using fun he => hk he.symm)]

theorem pyInsert_total {x : ScoredTask} :
    ∀ {s : List ScoredTask}, (∀ y ∈ s, ∃ o, cmpKey x y = .ok o) →
      ∃ z, pyInsert x s = .ok z := by
  intro s
  induction s with
  | nil => exact fun _ => ⟨[x], rfl⟩
  | cons y ys ih =>
    intro hcmp
    obtain ⟨o, ho⟩ := hcmp y (List.mem_cons_self y ys)
    obtain ⟨z', hz'⟩ := ih (fun t ht => hcmp t (List.mem_cons_of_mem y ht))
    unfold pyInsert
    rw [ho]
    cases o with
    | lt => exact ⟨y :: z', by rw [hz']; rfl⟩
    | eq => exact ⟨x :: y :: ys, rfl⟩
    | gt => exact ⟨x :: y :: ys, rfl⟩

/-! ## Sort lemmas (claim C2) -/

theorem pySort_ok_cons {x : ScoredTask} {xs : List ScoredTask}
    {r : List ScoredTask} (h : pySort (x :: xs) = .ok r) :
    ∃ r', pySort xs = .ok r' ∧ pyInsert x r' = .ok r := by
  unfold pySort at h
  cases hz : pySort xs with
  | error e =>
    rw [hz] at h
    simp [bind, Except.bind] at h
  | ok r' =>
    rw [hz] at h
    simp only [bind, Except.bind] at h
    exact ⟨r', rfl, h⟩

theorem pySort_pairwise :
    ∀ {l r : List ScoredTask}, pySort l = .ok r →
      List.Pairwise (fun a b => keyGe (skey a) (skey b)) r := by
  intro l
  induction l with
  | nil =>
    intro r h
    have : r = [] := (Except.ok.inj h).symm
    subst this
    simp
  | cons x xs ih =>
    intro r h
    obtain ⟨r', hr', hi⟩ := pySort_ok_cons h
    exact pyInsert_pairwise (ih hr') hi

theorem pySort_mem :
    ∀ {l r : List ScoredTask}, pySort l = .ok r →
      ∀ t, t ∈ r ↔ t ∈ l := by
  intro l
  induction l with
  | nil =>
    intro r h t
    have : r = [] := (Except.ok.inj h).symm
    subst this
    simp
  | cons x xs ih =>
    intro r h t
    obtain ⟨r', hr', hi⟩ := pySort_ok_cons h
    rw [pyInsert_mem hi t, ih hr' t]
    simp

theorem pySort_filter :
    ∀ {l r : List ScoredTask}, pySort l = .ok r →
      ∀ k : ℚ × PImp,
        r.filter (fun t => skey t = k) = l.filter (fun t => skey t = k) := by
  intro l
  induction l with
  | nil =>
    intro r h k
    have : r = [] := (Except.ok.inj h).symm
    subst this
    rfl
  | cons x xs ih =>
    intro r h k
    obtain ⟨r', hr', hi⟩ := pySort_ok_cons h
    by_cases hk : k = skey x
    · subst hk
      rw [pyInsert_filter_self hi, ih hr']
      simp only [List.filter_cons]
      rw [if_pos (by simp)]
    · rw [pyInsert_filter_ne hk hi, ih hr' k]
      simp only [List.filter_cons]
      rw [if_neg (by simpa using fun he => hk he.symm)]

theorem pySort_total :
    ∀ {l : List ScoredTask},
      (∀ a ∈ l, ∀ b ∈ l, ∃ o, cmpKey a b = .ok o) →
      ∃ r, pySort l = .ok r := by
  intro l
  induction l with
  | nil => exact fun _ => ⟨[], rfl⟩
  | cons x xs ih =>
    intro hcmp
    obtain ⟨r', hr'⟩ := ih (fun a ha b hb =>
      hcmp a (List.mem_cons_of_mem x ha) b (List.mem_cons_of_mem x hb))
    obtain ⟨z, hz⟩ := @pyInsert_total x r' (fun y hy =>
      hcmp x (List.mem_cons_self x xs) y
        (List.mem_cons_of_mem x ((pySort_mem hr' y).mp hy)))
    refine ⟨z, ?_⟩
    unfold pySort
    rw [hr']
    simpa [bind, Except.bind] using hz

/-! ## Structure of a successful `analyze_tasks` call -/

theorem build_snd_snd (tasks : List Task) :
    (build_dependency_graph tasks).2.2 = mutateTasks tasks := rfl

theorem analyze_ok_elim {tasks : List Task} {strategy : String}
    {weights : Option Weights} {today : Int} {outs : List OutRec}
    {ts' : List Task}
    (h : analyze_tasks tasks strategy weights today = .ok (outs, ts')) :
    (tasks = [] ∧ outs = [] ∧ ts' = []) ∨
    (tasks ≠ [] ∧ ∃ scored sorted,
      preScored tasks strategy weights today = .ok scored ∧
      pySort scored = .ok sorted ∧
      outs = sorted.map toOut ∧ ts' = mutateTasks tasks) := by
  unfold analyze_tasks at h
  by_cases he : tasks = []
  · left
    rw [if_pos he] at h
    have := Except.ok.inj h
    refine ⟨he, ?_, ?_⟩
    · exact (congrArg Prod.fst this).symm
    · rw [he] at this
      exact (congrArg Prod.snd this).symm
  · right
    rw [if_neg he] at h
    refine ⟨he, ?_⟩
    cases hps : preScored tasks strategy weights today with
    | error e =>
      rw [hps] at h
      simp [bind, Except.bind] at h
    | ok scored =>
      rw [hps] at h
      simp only [bind, Except.bind] at h
      cases hso : pySort scored with
      | error e =>
        rw [hso] at h
        simp at h
      | ok sorted =>
        rw [hso] at h
        simp only at h
        have := Except.ok.inj h
        refine ⟨scored, sorted, rfl, hso, ?_, ?_⟩
        · exact (congrArg Prod.fst this).symm
        · rw [build_snd_snd] at this
          exact (congrArg Prod.snd this).symm

theorem outKey_toOut (st : ScoredTask) : outKey (toOut st) = skey st := rfl

theorem preScored_nil (strategy : String) (weights : Option Weights)
    (today : Int) : preScored [] strategy weights today = .ok [] := rfl

/-- **C2** — whenever `analyze` returns a list, that list is sorted
descending by the key pair (rounded score, raw importance value) — score
primary, importance tie-break — and the sort is stable: for every key,
the subsequence of output records with that key equals, in order, the
subsequence of the (input-ordered) scored records with that key. -/
theorem analyze_sorted_stable (tasks : List Task) (strategy : String)
    (weights : Option Weights) (today : Int) (outs : List OutRec)
    (ts' : List Task)
    (h : analyze_tasks tasks strategy weights today = .ok (outs, ts')) :
    List.Pairwise (fun a b => keyGe (outKey a) (outKey b)) outs ∧
    (∀ scored, preScored tasks strategy weights today = .ok scored →
      ∀ k : ℚ × PImp,
        outs.filter (fun r => outKey r = k) =
          (scored.map toOut).filter (fun r => outKey r = k)) := by
  rcases analyze_ok_elim h with ⟨he, ho, _⟩ | ⟨_, scored, sorted, hps, hso, ho, _⟩
  · subst ho
    refine ⟨List.Pairwise.nil, ?_⟩
    intro scored hsc k
    rw [he] at hsc
    rw [preScored_nil] at hsc
    have : scored = [] := (Except.ok.inj hsc).symm
    subst this
    rfl
  · subst ho
    constructor
    · have hp := pySort_pairwise hso
      exact List.Pairwise.map toOut
        (fun a b hab => by rw [outKey_toOut, outKey_toOut]; exact hab) hp
    · intro scored' hsc k
      have hse : scored' = scored := by
        rw [hps] at hsc
        exact (Except.ok.inj hsc).symm
      subst hse
      rw [List.filter_map, List.filter_map]
      have hcomp : ∀ l : List ScoredTask,
          l.filter (fun st => decide (outKey (toOut st) = k)) =
          l.filter (fun st => decide (skey st = k)) := by
        intro l
        apply List.filter_congr
        intro st _
        rw [outKey_toOut]
      rw [show ((fun r => decide (outKey r = k)) ∘ toOut) =
          (fun st => decide (outKey (toOut st) = k)) from rfl]
      rw [hcomp, hcomp, pySort_filter hso k]

/-- Full evaluation of `analyze_tasks` on the example batch. -/
theorem analyze_ex_eval :
    analyze_tasks [exLow, exHigh] "high_impact" none 0 =
      .ok ([exOutHigh, exOutLow], [exMutLow, exMutHigh]) := by
  unfold exOutHigh exOutLow exMutLow exMutHigh
  simp [analyze_tasks, preScored, build_dependency_graph, mutateTasks, assignId,
    iid, effDeps, dictSet, dictGetD, detect_cycles, univ, dfs, dfsStep, adj,
    score_task,
    compute_urgency_score, safe_days_until_due, compute_effort_score,
    normalize_importance, intCoercion, score_high_impact,
    HIGH_IMPACT_WEIGHT_IMPORTANCE, pyRound2, pyNumStr, explanationBits,
    pySort, pyInsert, cmpKey, cmpPair, skey, sortKeyImp, pyCmpImp, toOut,
    bind, Except.bind, pure, Except.pure, List.lookup, clamp, max_def, min_def,
    round_eq, exLow, exHigh, List.enum, List.enumFrom, String.intercalate,
    mapExcept]
  norm_num [pySort, pyInsert, cmpKey, cmpPair, skey, sortKeyImp, pyCmpImp,
    bind, Except.bind, toOut, String.intercalate, String.intercalate.go]
  try decide

/-- **C2 witness** — on the example batch the sorted output is
`[high, low]` and it is pairwise ≥ in the key order. -/
theorem analyze_sorted_stable_witness :
    List.Pairwise (fun a b => keyGe (outKey a) (outKey b))
      [exOutHigh, exOutLow] :=
  (analyze_sorted_stable [exLow, exHigh] "high_impact" none 0
    [exOutHigh, exOutLow] [exMutLow, exMutHigh] analyze_ex_eval).1

/-! ## mapExcept lemmas -/

theorem mapExcept_cons_elim {α β : Type} {f : α → Except Unit β} {x : α}
    {xs : List α} {r : List β} (h : mapExcept f (x :: xs) = .ok r) :
    ∃ y ys, f x = .ok y ∧ mapExcept f xs = .ok ys ∧ r = y :: ys := by
  unfold mapExcept at h
  cases hx : f x with
  | error e => rw [hx] at h; simp [bind, Except.bind] at h
  | ok y =>
    rw [hx] at h
    simp only [bind, Except.bind] at h
    cases hxs : mapExcept f xs with
    | error e => rw [hxs] at h; simp at h
    | ok ys =>
      rw [hxs] at h
      simp only [pure, Except.pure] at h
      exact ⟨y, ys, rfl, rfl, (Except.ok.inj h).symm⟩

theorem mapExcept_ok_length {α β : Type} {f : α → Except Unit β} :
    ∀ {l : List α} {r : List β}, mapExcept f l = .ok r → r.length = l.length := by
  intro l
  induction l with
  | nil =>
    intro r h
    have : r = [] := (Except.ok.inj h).symm
    subst this
    rfl
  | cons x xs ih =>
    intro r h
    obtain ⟨y, ys, _, hys, hr⟩ := mapExcept_cons_elim h
    subst hr
    simp [ih hys]

theorem mapExcept_ok_get {α β : Type} {f : α → Except Unit β} :
    ∀ {l : List α} {r : List β}, mapExcept f l = .ok r →
      ∀ i (hi : i < l.length) (hi' : i < r.length),
        f (l.get ⟨i, hi⟩) = .ok (r.get ⟨i, hi'⟩) := by
  intro l
  induction l with
  | nil => intro r _ i hi; exact absurd hi (by simp)
  | cons x xs ih =>
    intro r h i hi hi'
    obtain ⟨y, ys, hy, hys, hr⟩ := mapExcept_cons_elim h
    subst hr
    cases i with
    | zero => exact hy
    | succ n =>
      exact ih hys n (by simpa using hi) (by simpa using hi')

theorem mapExcept_ok_mem {α β : Type} {f : α → Except Unit β} :
    ∀ {l : List α} {r : List β}, mapExcept f l = .ok r →
      ∀ y ∈ r, ∃ x ∈ l, f x = .ok y := by
  intro l
  induction l with
  | nil =>
    intro r h y hy
    have : r = [] := (Except.ok.inj h).symm
    subst this
    simp at hy
  | cons x xs ih =>
    intro r h y hy
    obtain ⟨y', ys, hy', hys, hr⟩ := mapExcept_cons_elim h
    subst hr
    rcases List.mem_cons.mp hy with rfl | hmem
    · exact ⟨x, List.mem_cons_self x xs, hy'⟩
    · obtain ⟨x', hx', hfx'⟩ := ih hys y hmem
      exact ⟨x', List.mem_cons_of_mem x hx', hfx'⟩

theorem mapExcept_total {α β : Type} {f : α → Except Unit β} :
    ∀ {l : List α}, (∀ x ∈ l, ∃ y, f x = .ok y) →
      ∃ r, mapExcept f l = .ok r := by
  intro l
  induction l with
  | nil => exact fun _ => ⟨[], rfl⟩
  | cons x xs ih =>
    intro hall
    obtain ⟨y, hy⟩ := hall x (List.mem_cons_self x xs)
    obtain ⟨ys, hys⟩ := ih (fun t ht => hall t (List.mem_cons_of_mem x ht))
    refine ⟨y :: ys, ?_⟩
    unfold mapExcept
    rw [hy]
    simp only [bind, Except.bind]
    rw [hys]
    rfl

theorem mapExcept_comp_map {α β γ : Type} (f : α → Except Unit β) (g : β → γ)
    (f' : α → Except Unit γ) (hf : ∀ x, f' x = (f x).map g) :
    ∀ l : List α, mapExcept f' l = (mapExcept f l).map (List.map g) := by
  intro l
  induction l with
  | nil => rfl
  | cons x xs ih =>
    unfold mapExcept
    rw [hf x, ih]
    cases f x with
    | error e => rfl
    | ok y =>
      simp only [Except.map, bind, Except.bind]
      cases mapExcept f xs with
      | error e => rfl
      | ok ys => rfl

/-! ## Unrecognized strategy fallback (claim C8) -/

theorem score_task_retag (task : Task) (s : String)
    (dependents_count : List (String × Nat)) (weights : Option Weights)
    (in_cycle : Option (List String)) (today : Int)
    (h1 : s ≠ "fastest_wins") (h2 : s ≠ "high_impact")
    (h3 : s ≠ "deadline_driven") :
    score_task task s dependents_count weights in_cycle today =
      (score_task task "smart_balance" dependents_count weights in_cycle
        today).map (fun st => { st with strategy := s }) := by
  unfold score_task
  have d1 : ¬ ("smart_balance" : String) = "fastest_wins" := by decide
  have d2 : ¬ ("smart_balance" : String) = "high_impact" := by decide
  have d3 : ¬ ("smart_balance" : String) = "deadline_driven" := by decide
  simp only [if_neg h1, if_neg h2, if_neg h3, if_neg d1, if_neg d2, if_neg d3]
  cases compute_urgency_score task.due_date today with
  | error e => rfl
  | ok u =>
    cases compute_effort_score task.estimated_hours with
    | error e => rfl
    | ok f => rfl

theorem pyInsert_retag (s : String) (x : ScoredTask) :
    ∀ (l : List ScoredTask),
      pyInsert { x with strategy := s }
          (l.map (fun st => { st with strategy := s })) =
        (pyInsert x l).map (List.map (fun st => { st with strategy := s })) := by
  intro l
  induction l with
  | nil => rfl
  | cons y ys ih =>
    unfold pyInsert
    have hck : cmpKey { x with strategy := s } { y with strategy := s } =
        cmpKey x y := rfl
    simp only [List.map_cons, hck]
    cases cmpKey x y with
    | error e => rfl
    | ok o =>
      cases o with
      | lt =>
        simp only
        rw [ih]
        cases pyInsert x ys with
        | error e => rfl
        | ok z => rfl
      | eq => rfl
      | gt => rfl

theorem pySort_retag (s : String) :
    ∀ (l : List ScoredTask),
      pySort (l.map (fun st => { st with strategy := s })) =
        (pySort l).map (List.map (fun st => { st with strategy := s })) := by
  intro l
  induction l with
  | nil => rfl
  | cons x xs ih =>
    unfold pySort
    simp only [List.map_cons, bind, Except.bind]
    rw [ih]
    cases pySort xs with
    | error e => rfl
    | ok r =>
      simp only [Except.map]
      exact pyInsert_retag s x r

/-- **C8** — for every strategy string other than the three recognized
names, `analyze` behaves exactly as under `smart_balance` (including the
default weights when none are supplied): same scores, same order, same
explanations; only the echoed `strategy_used` field differs.  In
particular it does not raise. -/
theorem unrecognized_strategy_fallback (s : String)
    (h1 : s ≠ "fastest_wins") (h2 : s ≠ "high_impact")
    (h3 : s ≠ "deadline_driven") (tasks : List Task)
    (weights : Option Weights) (today : Int) :
    analyze_tasks tasks s weights today =
      (analyze_tasks tasks "smart_balance" weights today).map
        (fun p => (p.1.map (fun r => { r with strategy_used := s }), p.2)) := by
  unfold analyze_tasks
  by_cases he : tasks = []
  · rw [if_pos he, if_pos he]
    rfl
  · rw [if_neg he, if_neg he]
    have hps : preScored tasks s weights today =
        (preScored tasks "smart_balance" weights today).map
          (List.map (fun st => { st with strategy := s })) := by
      unfold preScored
      exact mapExcept_comp_map _ _ _
        (fun t => score_task_retag t s _ weights _ today h1 h2 h3) _
    rw [hps]
    cases preScored tasks "smart_balance" weights today with
    | error e => rfl
    | ok scored =>
      simp only [Except.map, bind, Except.bind]
      rw [pySort_retag]
      cases pySort scored with
      | error e => rfl
      | ok sorted =>
        simp only [Except.map, pure, Except.pure, List.map_map]
        rfl

/-- **C8 witness** — the unrecognized name `"bogus"` on the example
batch equals the `smart_balance` run with `strategy_used` re-tagged. -/
theorem unrecognized_strategy_fallback_witness :
    analyze_tasks [exLow, exHigh] "bogus" none 0 =
      (analyze_tasks [exLow, exHigh] "smart_balance" none 0).map
        (fun p => (p.1.map (fun r => { r with strategy_used := "bogus" }), p.2)) :=
  unrecognized_strategy_fallback "bogus" (by decide) (by decide) (by decide)
    [exLow, exHigh] none 0

/-! ## Mutation lemmas (claims C9, C10) -/

theorem mutateTasks_length (l : List Task) :
    (mutateTasks l).length = l.length := by
  simp [mutateTasks]

theorem mutateTasks_getElem (l : List Task) (i : Nat) (hi : i < l.length)
    (hi' : i < (mutateTasks l).length) :
    (mutateTasks l)[i] =
      { l[i] with internal_id := some (assignId i l[i]) } := by
  unfold mutateTasks
  rw [List.getElem_map]
  rw [List.getElem_enum]

theorem mutateTasks_idem (l : List Task) :
    mutateTasks (mutateTasks l) = mutateTasks l := by
  apply List.ext_getElem
  · rw [mutateTasks_length, mutateTasks_length]
  · intro i h1 h2
    have hi : i < l.length := by
      rw [mutateTasks_length] at h2
      exact h2
    have hm : i < (mutateTasks l).length := by
      rw [mutateTasks_length]
      exact hi
    rw [mutateTasks_getElem (mutateTasks l) i hm h1,
        mutateTasks_getElem l i hi hm]
    simp [assignId]

theorem build_mutate (tasks : List Task) :
    build_dependency_graph (mutateTasks tasks) =
      build_dependency_graph tasks := by
  unfold build_dependency_graph
  rw [mutateTasks_idem]

/-- **C9** — with "today" held fixed, feeding `analyze`'s (mutated) input
batch back into `analyze` with the same strategy and weights reproduces
the identical output — same scores, same order, same explanations, same
mutated batch: the `_internal_id` bookkeeping injected by the first call
does not change the second call's result. -/
theorem analyze_idempotent {tasks : List Task} {strategy : String}
    {weights : Option Weights} {today : Int} {outs : List OutRec}
    {ts' : List Task}
    (h : analyze_tasks tasks strategy weights today = .ok (outs, ts')) :
    analyze_tasks ts' strategy weights today = .ok (outs, ts') := by
  rcases analyze_ok_elim h with ⟨he, ho, ht⟩ | ⟨hne, scored, sorted, hps, hso, ho, ht⟩
  · subst he ho ht
    rfl
  · subst ho ht
    have hne' : mutateTasks tasks ≠ [] := by
      intro hc
      apply hne
      have := congrArg List.length hc
      rw [mutateTasks_length] at this
      exact List.length_eq_zero.mp this
    unfold analyze_tasks
    rw [if_neg hne']
    have hps' : preScored (mutateTasks tasks) strategy weights today =
        .ok scored := by
      unfold preScored at hps ⊢
      rw [build_mutate]
      exact hps
    rw [hps']
    simp only [bind, Except.bind]
    rw [hso]
    simp only [pure, Except.pure]
    rw [build_snd_snd, mutateTasks_idem]

/-- **C9 witness** — re-running `analyze` on the mutated example batch
reproduces the first call's output exactly. -/
theorem analyze_idempotent_witness :
    analyze_tasks [exMutLow, exMutHigh] "high_impact" none 0 =
      .ok ([exOutHigh, exOutLow], [exMutLow, exMutHigh]) :=
  analyze_idempotent analyze_ex_eval

/-- **C10** — `analyze` mutates its input: after every successful call,
each task record in the caller's list carries `_internal_id` (the
returned second component is the caller's list as the call leaves it),
while the returned output records are fresh copies with that key
removed. -/
theorem analyze_mutates_input {tasks : List Task} {strategy : String}
    {weights : Option Weights} {today : Int} {outs : List OutRec}
    {ts' : List Task}
    (h : analyze_tasks tasks strategy weights today = .ok (outs, ts')) :
    ts'.length = tasks.length ∧
    (∀ i (hi : i < tasks.length) (hi' : i < ts'.length),
      ts'[i] = { tasks[i] with internal_id := some (assignId i tasks[i]) }) ∧
    (∀ o ∈ outs, o.task.internal_id = none) := by
  rcases analyze_ok_elim h with ⟨he, ho, ht⟩ | ⟨_, scored, sorted, _, _, ho, ht⟩
  · subst he ho ht
    refine ⟨rfl, ?_, ?_⟩
    · intro i hi
      exact absurd hi (by simp)
    · intro o ho
      simp at ho
  · subst ho ht
    refine ⟨mutateTasks_length tasks, ?_, ?_⟩
    · intro i hi hi'
      exact mutateTasks_getElem tasks i hi hi'
    · intro o ho
      obtain ⟨st, _, hst⟩ := List.mem_map.mp ho
      rw [← hst]
      rfl

/-- **C10 witness** — on the example batch, both returned tasks carry an
injected internal id and both output records have none. -/
theorem analyze_mutates_input_witness :
    (∀ i (hi : i < ([exLow, exHigh] : List Task).length)
        (hi' : i < ([exMutLow, exMutHigh] : List Task).length),
      [exMutLow, exMutHigh][i] =
        { ([exLow, exHigh] : List Task)[i] with
          internal_id := some (assignId i ([exLow, exHigh] : List Task)[i]) }) ∧
    (∀ o ∈ [exOutHigh, exOutLow], o.task.internal_id = none) :=
  ⟨(analyze_mutates_input analyze_ex_eval).2.1,
   (analyze_mutates_input analyze_ex_eval).2.2⟩

/-! ## Error behavior on malformed fields (claim C1) -/

/-- **C1 counterexample** — a task whose `estimated_hours` is a
non-numeric string makes `analyze` raise (Python: `TypeError` at
`hours <= 0` in `compute_effort_score`) instead of degrading. -/
theorem analyze_never_raises_cex :
    analyze_tasks [⟨none, .pMissing, .pdNone, .phBad "soon", none, none⟩]
      "smart_balance" none 0 = .error () := by
  rfl

theorem score_task_ok_task {t : Task} {s : String}
    {dc : List (String × Nat)} {w : Option Weights} {ic : Option (List String)}
    {today : Int} {st : ScoredTask}
    (h : score_task t s dc w ic today = .ok st) : st.task = t := by
  unfold score_task at h
  cases hu : compute_urgency_score t.due_date today with
  | error e => rw [hu] at h; simp [bind, Except.bind] at h
  | ok u =>
    rw [hu] at h
    simp only [bind, Except.bind] at h
    cases he : compute_effort_score t.estimated_hours with
    | error e => rw [he] at h; simp at h
    | ok f =>
      rw [he] at h
      simp only [pure, Except.pure] at h
      have := Except.ok.inj h
      rw [← this]

theorem compute_urgency_total (d : PDate) (today : Int)
    (hd : ∀ s, d = .pdBad s → s = "") :
    ∃ u, compute_urgency_score d today = .ok u := by
  cases d with
  | pdNone => exact ⟨_, rfl⟩
  | pdBad s =>
    have : s = "" := hd s rfl
    subst this
    exact ⟨_, rfl⟩
  | pdDate dd =>
    unfold compute_urgency_score safe_days_until_due
    simp only [bind, Except.bind]
    by_cases h : dd - today < 0
    · rw [if_pos h]
      exact ⟨_, rfl⟩
    · rw [if_neg h]
      exact ⟨_, rfl⟩

theorem compute_effort_total (hrs : PHours)
    (hh : ∀ s, hrs ≠ .phBad s) :
    ∃ f, compute_effort_score hrs = .ok f := by
  cases hrs with
  | phNone => exact ⟨_, rfl⟩
  | phBad s => exact absurd rfl (hh s)
  | phNum q =>
    simp only [compute_effort_score]
    by_cases h0 : q ≤ 0
    · rw [if_pos h0]; exact ⟨_, rfl⟩
    · rw [if_neg h0]
      by_cases h1 : q ≤ 1
      · rw [if_pos h1]; exact ⟨_, rfl⟩
      · rw [if_neg h1]
        by_cases h3 : q ≤ 3
        · rw [if_pos h3]; exact ⟨_, rfl⟩
        · rw [if_neg h3]
          by_cases h6 : q ≤ 6
          · rw [if_pos h6]; exact ⟨_, rfl⟩
          · rw [if_neg h6]
            by_cases h10 : q ≤ 10
            · rw [if_pos h10]; exact ⟨_, rfl⟩
            · rw [if_neg h10]; exact ⟨_, rfl⟩

theorem score_task_total (t : Task) (s : String)
    (dc : List (String × Nat)) (w : Option Weights) (ic : Option (List String))
    (today : Int)
    (hd : ∀ s', t.due_date = .pdBad s' → s' = "")
    (hh : ∀ s', t.estimated_hours ≠ .phBad s') :
    ∃ st, score_task t s dc w ic today = .ok st := by
  obtain ⟨u, hu⟩ := compute_urgency_total t.due_date today hd
  obtain ⟨f, hf⟩ := compute_effort_total t.estimated_hours hh
  unfold score_task
  rw [hu]
  simp only [bind, Except.bind]
  rw [hf]
  exact ⟨_, rfl⟩

theorem mutate_mem_elim {tasks : List Task} {x : Task}
    (hx : x ∈ mutateTasks tasks) :
    ∃ i, ∃ hi : i < tasks.length,
      x = { tasks[i] with internal_id := some (assignId i tasks[i]) } := by
  obtain ⟨i, hi, hx'⟩ := List.mem_iff_getElem.mp hx
  have hi' : i < tasks.length := by
    rw [mutateTasks_length] at hi
    exact hi
  refine ⟨i, hi', ?_⟩
  rw [← hx', mutateTasks_getElem tasks i hi' hi]

/-- **C1 (amended)** — provided every task's `due_date` is absent, falsy
or a valid date and its `estimated_hours` is absent or a number, and the
raw importance values are pairwise orderable (e.g. all numeric, missing
or `None`-free homogeneous), `analyze` returns a result without raising;
an invalid importance (None, or a non-numeric string) degrades to the
default 5, a missing due date to neutral urgency, and missing or
non-positive estimated hours to the medium-effort assumption, with the
degradation reflected only in the explanation text (the task's own
fields are returned unchanged).  A malformed truthy `due_date` or a
non-numeric `estimated_hours` instead raises `TypeError`, as the
counterexample shows. -/
theorem analyze_total_degrades (tasks : List Task) (strategy : String)
    (weights : Option Weights) (today : Int)
    (HW : ∀ t ∈ tasks, (∀ s, t.due_date = .pdBad s → s = "") ∧
      (∀ s, t.estimated_hours ≠ .phBad s))
    (HC : ∀ t ∈ tasks, ∀ t' ∈ tasks, ∃ o,
      pyCmpImp (sortKeyImp t.importance) (sortKeyImp t'.importance) = .ok o) :
    (∃ outs ts',
      analyze_tasks tasks strategy weights today = .ok (outs, ts') ∧
      ∀ o ∈ outs, ∃ i, ∃ hi : i < tasks.length,
        o.task = { tasks[i] with internal_id := none }) ∧
    normalize_importance .pNone = 5 ∧
    (∀ s : String, s.toInt? = none → normalize_importance (.pStr s) = 5) ∧
    compute_urgency_score .pdNone today =
      .ok (5, "neutral urgency (no due date)") ∧
    compute_effort_score .phNone = .ok (6, "unknown effort (assumed medium)") ∧
    (∀ q : ℚ, q ≤ 0 → compute_effort_score (.phNum q) =
      .ok (6, "unknown effort (assumed medium)")) := by
  have hurg : compute_urgency_score .pdNone today =
      .ok (5, "neutral urgency (no due date)") := by
    simp [compute_urgency_score, safe_days_until_due, bind, Except.bind, pure,
      Except.pure]
    norm_num
  have heff : compute_effort_score .phNone =
      .ok (6, "unknown effort (assumed medium)") := by
    simp [compute_effort_score]
    norm_num
  refine ⟨?_, rfl, ?_, hurg, heff, ?_⟩
  · by_cases he : tasks = []
    · subst he
      exact ⟨[], [], rfl, by intro o ho; simp at ho⟩
    · have hsc : ∃ scored, preScored tasks strategy weights today =
          .ok scored := by
        unfold preScored
        apply mapExcept_total
        intro x hx
        rw [build_snd_snd] at hx
        obtain ⟨i, hi, hxe⟩ := mutate_mem_elim hx
        have hmem : tasks[i] ∈ tasks := List.getElem_mem hi
        obtain ⟨hd, hh⟩ := HW tasks[i] hmem
        refine score_task_total x strategy _ weights _ today ?_ ?_
        · intro s' hs'
          apply hd s'
          rw [hxe] at hs'
          exact hs'
        · intro s' hs'
          apply hh s'
          rw [hxe] at hs'
          exact hs'
      obtain ⟨scored, hps⟩ := hsc
      have himp : ∀ a ∈ scored, ∃ i, ∃ hi : i < tasks.length,
          a.task = { tasks[i] with internal_id := some (assignId i tasks[i]) } := by
        intro a ha
        obtain ⟨x, hx, hfx⟩ := mapExcept_ok_mem hps a ha
        rw [build_snd_snd] at hx
        obtain ⟨i, hi, hxe⟩ := mutate_mem_elim hx
        exact ⟨i, hi, by rw [score_task_ok_task hfx, hxe]⟩
      have hso : ∃ sorted, pySort scored = .ok sorted := by
        apply pySort_total
        intro a ha b hb
        obtain ⟨i, hi, hia⟩ := himp a ha
        obtain ⟨j, hj, hjb⟩ := himp b hb
        unfold cmpKey cmpPair
        by_cases h1 : (skey a).1 < (skey b).1
        · rw [if_pos h1]; exact ⟨_, rfl⟩
        · rw [if_neg h1]
          by_cases h2 : (skey b).1 < (skey a).1
          · rw [if_pos h2]; exact ⟨_, rfl⟩
          · rw [if_neg h2]
            have hka : (skey a).2 = sortKeyImp tasks[i].importance := by
              unfold skey
              rw [hia]
            have hkb : (skey b).2 = sortKeyImp tasks[j].importance := by
              unfold skey
              rw [hjb]
            rw [hka, hkb]
            exact HC tasks[i] (List.getElem_mem hi) tasks[j] (List.getElem_mem hj)
      obtain ⟨sorted, hsort⟩ := hso
      refine ⟨sorted.map toOut, mutateTasks tasks, ?_, ?_⟩
      · unfold analyze_tasks
        rw [if_neg he, hps]
        simp only [bind, Except.bind]
        rw [hsort]
        rw [build_snd_snd]
        rfl
      · intro o ho
        obtain ⟨st, hst, hto⟩ := List.mem_map.mp ho
        have hsc' : st ∈ scored := (pySort_mem hsort st).mp hst
        obtain ⟨i, hi, hie⟩ := himp st hsc'
        refine ⟨i, hi, ?_⟩
        rw [← hto]
        unfold toOut
        simp only
        rw [hie]
  · intro s hs
    simp only [normalize_importance, intCoercion]
    rw [hs]
  · intro q hq
    simp only [compute_effort_score]
    rw [if_pos hq]
    norm_num

/-- **C1 witness** — a batch whose only task has `None` importance,
no due date and no hours analyzes successfully. -/
theorem analyze_total_degrades_witness :
    ∃ outs ts',
      analyze_tasks [⟨none, .pNone, .pdNone, .phNone, none, none⟩]
        "smart_balance" none 0 = .ok (outs, ts') ∧
      ∀ o ∈ outs, ∃ i, ∃ hi : i <
          ([⟨none, .pNone, .pdNone, .phNone, none, none⟩] : List Task).length,
        o.task = { ([⟨none, .pNone, .pdNone, .phNone, none, none⟩] :
          List Task)[i] with internal_id := none } :=
  (analyze_total_degrades [⟨none, .pNone, .pdNone, .phNone, none, none⟩]
    "smart_balance" none 0
    (by
      intro t ht
      simp only [List.mem_singleton] at ht
      subst ht
      exact ⟨(fun s hs => by cases hs), (fun s hs => by cases hs)⟩)
    (by
      intro t ht t' ht'
      simp only [List.mem_singleton] at ht ht'
      subst ht
      subst ht'
      exact ⟨.eq, rfl⟩)).1

/-! ## Cycle detection: graph-shape lemmas (claim C6) -/

theorem lookup_mem {α : Type} :
    ∀ {l : List (String × α)} {k : String} {v : α},
      l.lookup k = some v → (k, v) ∈ l := by
  intro l
  induction l with
  | nil => intro k v h; cases h
  | cons p l ih =>
    intro k v h
    by_cases hk : k = p.1
    · have hb : (k == p.1) = true := by simp [hk]
      simp only [List.lookup, hb] at h
      have : v = p.2 := (Option.some.inj h).symm
      subst this
      subst hk
      exact List.mem_cons_self _ _
    · have hb : (k == p.1) = false := by simp [hk]
      simp only [List.lookup, hb] at h
      exact List.mem_cons_of_mem _ (ih h)

theorem adj_key_mem {g : List (String × List String)} {n x : String}
    (h : x ∈ adj g n) : n ∈ g.map Prod.fst := by
  unfold adj dictGetD at h
  cases hl : g.lookup n with
  | none => rw [hl] at h; simp at h
  | some l =>
    have := lookup_mem hl
    exact List.mem_map.mpr ⟨(n, l), this, rfl⟩

theorem adj_subset_univ {g : List (String × List String)} {n x : String}
    (h : x ∈ adj g n) : x ∈ univ g := by
  unfold adj dictGetD at h
  cases hl : g.lookup n with
  | none => rw [hl] at h; simp at h
  | some l =>
    rw [hl] at h
    unfold univ
    apply List.mem_append_right
    exact List.mem_flatten.mpr ⟨l, List.mem_map.mpr ⟨(n, l), lookup_mem hl, rfl⟩, h⟩

theorem filter_length_le {α : Type} (l : List α) (p q : α → Bool)
    (h : ∀ x, p x = true → q x = true) :
    (l.filter p).length ≤ (l.filter q).length := by
  induction l with
  | nil => exact Nat.le_refl 0
  | cons x l ih =>
    simp only [List.filter_cons]
    cases hp : p x with
    | true =>
      rw [h x hp]
      simpa using ih
    | false =>
      cases hq : q x with
      | true =>
        simp
        omega
      | false =>
        simpa using ih

theorem filter_length_lt {α : Type} (l : List α) (p q : α → Bool)
    (h : ∀ x, p x = true → q x = true) (a : α) (ha : a ∈ l)
    (hpa : p a = false) (hqa : q a = true) :
    (l.filter p).length < (l.filter q).length := by
  induction l with
  | nil => cases ha
  | cons x l ih =>
    simp only [List.filter_cons]
    rcases List.mem_cons.mp ha with rfl | ha'
    · rw [hpa, hqa]
      simp
      have := filter_length_le l p q h
      omega
    · cases hp : p x with
      | true =>
        rw [h x hp]
        simpa using ih ha'
      | false =>
        cases hq : q x with
        | true =>
          simp
          have := ih ha'
          omega
        | false =>
          simpa using ih ha'

theorem cnt_le_of_visited_subset {g : List (String × List String)}
    {s s' : DfsState} (h : ∀ x ∈ s.visited, x ∈ s'.visited) :
    unvisitedCount g s' ≤ unvisitedCount g s := by
  apply filter_length_le
  intro x hx
  simp only [decide_eq_true_eq] at hx ⊢
  intro hm
  exact hx (h x hm)

theorem cnt_lt_of_newly_visited {g : List (String × List String)}
    {s s' : DfsState} {n : String} (hnu : n ∈ univ g) (hnv : ¬ n ∈ s.visited)
    (hn' : n ∈ s'.visited) (h : ∀ x ∈ s.visited, x ∈ s'.visited) :
    unvisitedCount g s' < unvisitedCount g s := by
  apply filter_length_lt _ _ _ ?_ n hnu
  · simp [hn']
  · simp [hnv]
  · intro x hx
    simp only [decide_eq_true_eq] at hx ⊢
    intro hm
    exact hx (h x hm)

theorem cnt_le_univ_length (g : List (String × List String)) (s : DfsState) :
    unvisitedCount g s ≤ (univ g).length :=
  List.length_filter_le _ _

/-! ## DFS invariants (claim C6) -/

theorem foldl_preserve {α σ : Type} (step : σ → α → σ) (P : σ → Prop) :
    ∀ (l : List α) (s : σ), P s →
      (∀ acc x, x ∈ l → P acc → P (step acc x)) → P (l.foldl step s) := by
  intro l
  induction l with
  | nil => intro s h _; exact h
  | cons x l ih =>
    intro s h hstep
    exact ih _ (hstep s x (List.mem_cons_self x l) h)
      (fun acc y hy hacc => hstep acc y (List.mem_cons_of_mem x hy) hacc)

theorem dfsStep_vis_mono {rec : String → DfsState → DfsState} {node : String}
    (hrec : ∀ m acc x, x ∈ acc.visited → x ∈ (rec m acc).visited)
    (acc : DfsState) (m x : String) (hx : x ∈ acc.visited) :
    x ∈ (dfsStep rec node acc m).visited := by
  unfold dfsStep
  split_ifs
  · exact hx
  · exact hx
  · exact hrec m acc x hx

theorem dfsStep_cyc_mono {rec : String → DfsState → DfsState} {node : String}
    (hrec : ∀ m acc x, x ∈ acc.inCycle → x ∈ (rec m acc).inCycle)
    (acc : DfsState) (m x : String) (hx : x ∈ acc.inCycle) :
    x ∈ (dfsStep rec node acc m).inCycle := by
  unfold dfsStep
  split_ifs
  · exact List.mem_cons_of_mem _ (List.mem_cons_of_mem _ hx)
  · exact hx
  · exact hrec m acc x hx

theorem dfsStep_stack_keep {rec : String → DfsState → DfsState} {node : String}
    (hrec : ∀ m acc x, x ∈ acc.visited → x ∈ acc.onStack →
      x ∈ (rec m acc).visited ∧ x ∈ (rec m acc).onStack)
    (acc : DfsState) (m x : String) (hv : x ∈ acc.visited)
    (hs : x ∈ acc.onStack) :
    x ∈ (dfsStep rec node acc m).visited ∧
      x ∈ (dfsStep rec node acc m).onStack := by
  unfold dfsStep
  split_ifs
  · exact ⟨hv, hs⟩
  · exact ⟨hv, hs⟩
  · exact hrec m acc x hv hs

theorem dfs_vis_mono (g : List (String × List String)) :
    ∀ (fuel : Nat) (n : String) (s : DfsState) (x : String),
      x ∈ s.visited → x ∈ (dfs g fuel n s).visited := by
  intro fuel
  induction fuel with
  | zero => intro n s x hx; exact hx
  | succ f ih =>
    intro n s x hx
    show x ∈ (dfs g (f + 1) n s).visited
    unfold dfs
    by_cases hn : n ∈ s.visited
    · rw [if_pos hn]; exact hx
    · rw [if_neg hn]
      show x ∈ ((adj g n).foldl (dfsStep (dfs g f) n)
        ⟨n :: s.visited, n :: s.onStack, s.inCycle⟩).visited
      exact foldl_preserve (dfsStep (dfs g f) n) (fun acc => x ∈ acc.visited)
        (adj g n) ⟨n :: s.visited, n :: s.onStack, s.inCycle⟩
        (List.mem_cons_of_mem _ hx)
        (fun acc m _ hacc =>
          dfsStep_vis_mono (fun m' acc' y hy => ih m' acc' y hy) acc m x hacc)

theorem dfs_cyc_mono (g : List (String × List String)) :
    ∀ (fuel : Nat) (n : String) (s : DfsState) (x : String),
      x ∈ s.inCycle → x ∈ (dfs g fuel n s).inCycle := by
  intro fuel
  induction fuel with
  | zero => intro n s x hx; exact hx
  | succ f ih =>
    intro n s x hx
    show x ∈ (dfs g (f + 1) n s).inCycle
    unfold dfs
    by_cases hn : n ∈ s.visited
    · rw [if_pos hn]; exact hx
    · rw [if_neg hn]
      show x ∈ ((adj g n).foldl (dfsStep (dfs g f) n)
        ⟨n :: s.visited, n :: s.onStack, s.inCycle⟩).inCycle
      exact foldl_preserve (dfsStep (dfs g f) n) (fun acc => x ∈ acc.inCycle)
        (adj g n) ⟨n :: s.visited, n :: s.onStack, s.inCycle⟩ hx
        (fun acc m _ hacc =>
          dfsStep_cyc_mono (fun m' acc' y hy => ih m' acc' y hy) acc m x hacc)

theorem dfs_stack_keep (g : List (String × List String)) :
    ∀ (fuel : Nat) (n : String) (s : DfsState) (x : String),
      x ∈ s.visited → x ∈ s.onStack →
      x ∈ (dfs g fuel n s).visited ∧ x ∈ (dfs g fuel n s).onStack := by
  intro fuel
  induction fuel with
  | zero => intro n s x hv hs; exact ⟨hv, hs⟩
  | succ f ih =>
    intro n s x hv hs
    have hgoal : x ∈ (dfs g (f + 1) n s).visited ∧
        x ∈ (dfs g (f + 1) n s).onStack := by
      unfold dfs
      by_cases hn : n ∈ s.visited
      · rw [if_pos hn]; exact ⟨hv, hs⟩
      · rw [if_neg hn]
        have hfold : x ∈ ((adj g n).foldl (dfsStep (dfs g f) n)
            ⟨n :: s.visited, n :: s.onStack, s.inCycle⟩).visited ∧
            x ∈ ((adj g n).foldl (dfsStep (dfs g f) n)
            ⟨n :: s.visited, n :: s.onStack, s.inCycle⟩).onStack :=
          foldl_preserve (dfsStep (dfs g f) n)
            (fun acc => x ∈ acc.visited ∧ x ∈ acc.onStack)
            (adj g n) ⟨n :: s.visited, n :: s.onStack, s.inCycle⟩
            ⟨List.mem_cons_of_mem _ hv, List.mem_cons_of_mem _ hs⟩
            (fun acc m _ hacc =>
              dfsStep_stack_keep (fun m' acc' y hy hy' => ih m' acc' y hy hy')
                acc m x hacc.1 hacc.2)
        refine ⟨hfold.1, ?_⟩
        have hxn : x ≠ n := fun he => hn (he ▸ hv)
        exact (List.mem_erase_of_ne hxn).mpr hfold.2
    exact hgoal

theorem dfs_visits (g : List (String × List String)) (fuel : Nat) (n : String)
    (s : DfsState) (hf : 0 < fuel) : n ∈ (dfs g fuel n s).visited := by
  cases fuel with
  | zero => omega
  | succ f =>
    unfold dfs
    by_cases hn : n ∈ s.visited
    · rw [if_pos hn]; exact hn
    · rw [if_neg hn]
      show n ∈ ((adj g n).foldl (dfsStep (dfs g f) n)
        ⟨n :: s.visited, n :: s.onStack, s.inCycle⟩).visited
      exact foldl_preserve (dfsStep (dfs g f) n) (fun acc => n ∈ acc.visited)
        (adj g n) ⟨n :: s.visited, n :: s.onStack, s.inCycle⟩
        (List.mem_cons_self _ _)
        (fun acc m _ hacc =>
          dfsStep_vis_mono (fun m' acc' y hy => dfs_vis_mono g f m' acc' y hy)
            acc m n hacc)

/-! ## DFS marking lemmas (claim C6) -/

theorem fold_cyc_mono (g : List (String × List String)) (f : Nat)
    (node : String) (l : List String) (acc : DfsState) (x : String)
    (hx : x ∈ acc.inCycle) :
    x ∈ (l.foldl (dfsStep (dfs g f) node) acc).inCycle :=
  foldl_preserve (dfsStep (dfs g f) node) (fun st => x ∈ st.inCycle) l acc hx
    (fun acc' m _ hacc =>
      dfsStep_cyc_mono (fun m' st y hy => dfs_cyc_mono g f m' st y hy)
        acc' m x hacc)

theorem fold_vis_mono (g : List (String × List String)) (f : Nat)
    (node : String) (l : List String) (acc : DfsState) (x : String)
    (hx : x ∈ acc.visited) :
    x ∈ (l.foldl (dfsStep (dfs g f) node) acc).visited :=
  foldl_preserve (dfsStep (dfs g f) node) (fun st => x ∈ st.visited) l acc hx
    (fun acc' m _ hacc =>
      dfsStep_vis_mono (fun m' st y hy => dfs_vis_mono g f m' st y hy)
        acc' m x hacc)

theorem fold_visits_all (g : List (String × List String)) (f : Nat)
    (node : String) (hf : 0 < f) :
    ∀ (l : List String) (acc : DfsState) (m : String), m ∈ l →
      m ∈ (l.foldl (dfsStep (dfs g f) node) acc).visited := by
  intro l
  induction l with
  | nil => intro acc m hm; cases hm
  | cons x l ih =>
    intro acc m hm
    rcases List.mem_cons.mp hm with rfl | hm'
    · simp only [List.foldl_cons]
      apply fold_vis_mono
      unfold dfsStep
      by_cases hx : m ∈ acc.visited
      · rw [if_pos hx]
        split_ifs <;> exact hx
      · rw [if_neg hx]
        exact dfs_visits g f m acc hf
    · simp only [List.foldl_cons]
      exact ih _ m hm'

theorem fold_reach_mark (g : List (String × List String)) (f : Nat)
    (node : String) :
    ∀ (l : List String) (acc : DfsState) (a : String),
      a ∈ l → a ∈ acc.visited → a ∈ acc.onStack →
      node ∈ (l.foldl (dfsStep (dfs g f) node) acc).inCycle ∧
      a ∈ (l.foldl (dfsStep (dfs g f) node) acc).inCycle := by
  intro l
  induction l with
  | nil => intro acc a ha; cases ha
  | cons x l ih =>
    intro acc a ha hv hs
    rcases List.mem_cons.mp ha with rfl | ha'
    · have hstep : node ∈ (dfsStep (dfs g f) node acc a).inCycle ∧
          a ∈ (dfsStep (dfs g f) node acc a).inCycle := by
        unfold dfsStep
        rw [if_pos hv, if_pos hs]
        exact ⟨List.mem_cons_self _ _,
          List.mem_cons_of_mem _ (List.mem_cons_self _ _)⟩
      simp only [List.foldl_cons]
      exact ⟨fold_cyc_mono g f node l _ node hstep.1,
        fold_cyc_mono g f node l _ a hstep.2⟩
    · have hkeep := @dfsStep_stack_keep (dfs g f) node
        (fun m' st y hy hy' => dfs_stack_keep g f m' st y hy hy')
        acc x a hv hs
      simp only [List.foldl_cons]
      exact ih _ a ha' hkeep.1 hkeep.2

theorem fold_first_event (g : List (String × List String)) (f : Nat)
    (node : String) (E : DfsState → Prop)
    (hE : ∀ acc acc' : DfsState, acc.visited = acc'.visited → E acc → E acc')
    (P : DfsState → Prop)
    (hP : ∀ acc m, P acc → P (dfsStep (dfs g f) node acc m))
    (c d : String) :
    ∀ (l : List String),
      (∀ m ∈ l, ∀ acc', P acc' → ¬ E acc' → E (dfs g f m acc') →
        c ∈ (dfs g f m acc').inCycle ∧ d ∈ (dfs g f m acc').inCycle) →
      ∀ acc, P acc → ¬ E acc →
        E (l.foldl (dfsStep (dfs g f) node) acc) →
        c ∈ (l.foldl (dfsStep (dfs g f) node) acc).inCycle ∧
        d ∈ (l.foldl (dfsStep (dfs g f) node) acc).inCycle := by
  intro l
  induction l with
  | nil =>
    intro _ acc _ hne hEf
    exact absurd hEf hne
  | cons x l ih =>
    intro hkey acc hPacc hnE hEfin
    simp only [List.foldl_cons] at hEfin ⊢
    by_cases hx : x ∈ acc.visited
    · have hveq : (dfsStep (dfs g f) node acc x).visited = acc.visited := by
        unfold dfsStep
        rw [if_pos hx]
        split_ifs <;> rfl
      have hnE1 : ¬ E (dfsStep (dfs g f) node acc x) :=
        fun hE1 => hnE (hE _ _ hveq hE1)
      exact ih (fun m hm => hkey m (List.mem_cons_of_mem x hm)) _
        (hP acc x hPacc) hnE1 hEfin
    · have hstep : dfsStep (dfs g f) node acc x = dfs g f x acc := by
        unfold dfsStep
        rw [if_neg hx]
      by_cases hE1 : E (dfsStep (dfs g f) node acc x)
      · have hmark := hkey x (List.mem_cons_self x l) acc hPacc hnE
          (by rw [← hstep]; exact hE1)
        rw [← hstep] at hmark
        exact ⟨fold_cyc_mono g f node l _ c hmark.1,
          fold_cyc_mono g f node l _ d hmark.2⟩
      · exact ih (fun m hm => hkey m (List.mem_cons_of_mem x hm)) _
          (hP acc x hPacc) hE1 hEfin

theorem adj_nil_of_not_univ {g : List (String × List String)} {n : String}
    (h : ¬ n ∈ univ g) : adj g n = [] := by
  unfold adj dictGetD
  cases hl : g.lookup n with
  | none => rfl
  | some l =>
    exfalso
    apply h
    unfold univ
    exact List.mem_append_left _
      (List.mem_map.mpr ⟨(n, l), lookup_mem hl, rfl⟩)

theorem dfsStep_cnt_le (g : List (String × List String)) (f : Nat)
    (node : String) (acc : DfsState) (m : String) :
    unvisitedCount g (dfsStep (dfs g f) node acc m) ≤ unvisitedCount g acc :=
  cnt_le_of_visited_subset
    (fun x hx =>
      dfsStep_vis_mono (fun m' st y hy => dfs_vis_mono g f m' st y hy)
        acc m x hx)

/-- If `a` is visited and on the stack, and `b` (a node with the edge
`b → a`) becomes visited during this call, then the back-edge from `b`
to `a` is found and both endpoints are marked. -/
theorem dfs_mark (g : List (String × List String)) (a b : String)
    (hab : a ∈ adj g b) :
    ∀ (fuel : Nat) (n : String) (s : DfsState),
      unvisitedCount g s < fuel →
      a ∈ s.visited → a ∈ s.onStack → ¬ b ∈ s.visited →
      b ∈ (dfs g fuel n s).visited →
      a ∈ (dfs g fuel n s).inCycle ∧ b ∈ (dfs g fuel n s).inCycle := by
  intro fuel
  induction fuel with
  | zero => intro n s hcnt; omega
  | succ f ih =>
    intro n s hcnt hav has hbv hbres
    by_cases hn : n ∈ s.visited
    · have hd : dfs g (f + 1) n s = s := by
        unfold dfs
        rw [if_pos hn]
      rw [hd] at hbres
      exact absurd hbres hbv
    · have hd : dfs g (f + 1) n s =
          (⟨((adj g n).foldl (dfsStep (dfs g f) n)
              ⟨n :: s.visited, n :: s.onStack, s.inCycle⟩).visited,
           ((adj g n).foldl (dfsStep (dfs g f) n)
              ⟨n :: s.visited, n :: s.onStack, s.inCycle⟩).onStack.erase n,
           ((adj g n).foldl (dfsStep (dfs g f) n)
              ⟨n :: s.visited, n :: s.onStack, s.inCycle⟩).inCycle⟩ :
            DfsState) := by
        unfold dfs
        rw [if_neg hn]
      rw [hd] at hbres ⊢
      by_cases hnb : n = b
      · subst hnb
        have h := fold_reach_mark g f n (adj g n)
          ⟨n :: s.visited, n :: s.onStack, s.inCycle⟩ a hab
          (List.mem_cons_of_mem _ hav) (List.mem_cons_of_mem _ has)
        exact ⟨h.2, h.1⟩
      · by_cases hnu : n ∈ univ g
        · have hlt : unvisitedCount g
              (⟨n :: s.visited, n :: s.onStack, s.inCycle⟩ : DfsState) <
              unvisitedCount g s :=
            cnt_lt_of_newly_visited hnu hn (List.mem_cons_self _ _)
              (fun x hx => List.mem_cons_of_mem _ hx)
          refine fold_first_event g f n (fun st => b ∈ st.visited)
            (fun st st' hveq hb => by
              show b ∈ st'.visited
              rw [← hveq]
              exact hb)
            (fun st => a ∈ st.visited ∧ a ∈ st.onStack ∧
              unvisitedCount g st < f)
            ?_ a b (adj g n) ?_
            ⟨n :: s.visited, n :: s.onStack, s.inCycle⟩
            ⟨List.mem_cons_of_mem _ hav, List.mem_cons_of_mem _ has, ?_⟩
            ?_ hbres
          · rintro acc m ⟨h1, h2, h3⟩
            have hk := @dfsStep_stack_keep (dfs g f) n
              (fun m' st y hy hy' => dfs_stack_keep g f m' st y hy hy')
              acc m a h1 h2
            exact ⟨hk.1, hk.2, lt_of_le_of_lt (dfsStep_cnt_le g f n acc m) h3⟩
          · rintro m _ acc' ⟨h1, h2, h3⟩ hbe hbv'
            exact ih m acc' h3 h1 h2 hbe hbv'
          · omega
          · intro hmem
            rcases List.mem_cons.mp hmem with he | hmem'
            · exact hnb he.symm
            · exact hbv hmem'
        · have hadj := adj_nil_of_not_univ hnu
          rw [hadj] at hbres
          simp only [List.foldl_nil] at hbres
          rcases List.mem_cons.mp hbres with he | hmem'
          · exact absurd he.symm hnb
          · exact absurd hmem' hbv

/-- If `u` and `v` point at each other (`u = v` giving a self-loop is
allowed) and either becomes visited during this call, both are marked. -/
theorem dfs_mark_main (g : List (String × List String)) (u v : String)
    (hu : v ∈ adj g u) (hv : u ∈ adj g v) :
    ∀ (fuel : Nat) (n : String) (s : DfsState),
      unvisitedCount g s < fuel →
      ¬ u ∈ s.visited → ¬ v ∈ s.visited →
      (u ∈ (dfs g fuel n s).visited ∨ v ∈ (dfs g fuel n s).visited) →
      u ∈ (dfs g fuel n s).inCycle ∧ v ∈ (dfs g fuel n s).inCycle := by
  have huk : u ∈ univ g := by
    unfold univ
    exact List.mem_append_left _ (adj_key_mem hu)
  have hvk : v ∈ univ g := by
    unfold univ
    exact List.mem_append_left _ (adj_key_mem hv)
  intro fuel
  induction fuel with
  | zero => intro n s hcnt; omega
  | succ f ih =>
    intro n s hcnt huv hvv hdisj
    by_cases hn : n ∈ s.visited
    · have hd : dfs g (f + 1) n s = s := by
        unfold dfs
        rw [if_pos hn]
      rw [hd] at hdisj
      rcases hdisj with h | h
      · exact absurd h huv
      · exact absurd h hvv
    · have hd : dfs g (f + 1) n s =
          (⟨((adj g n).foldl (dfsStep (dfs g f) n)
              ⟨n :: s.visited, n :: s.onStack, s.inCycle⟩).visited,
           ((adj g n).foldl (dfsStep (dfs g f) n)
              ⟨n :: s.visited, n :: s.onStack, s.inCycle⟩).onStack.erase n,
           ((adj g n).foldl (dfsStep (dfs g f) n)
              ⟨n :: s.visited, n :: s.onStack, s.inCycle⟩).inCycle⟩ :
            DfsState) := by
        unfold dfs
        rw [if_neg hn]
      rw [hd] at hdisj ⊢
      by_cases hnu : n ∈ univ g
      · have hlt : unvisitedCount g
            (⟨n :: s.visited, n :: s.onStack, s.inCycle⟩ : DfsState) <
            unvisitedCount g s :=
          cnt_lt_of_newly_visited hnu hn (List.mem_cons_self _ _)
            (fun x hx => List.mem_cons_of_mem _ hx)
        have hcnt1 : unvisitedCount g
            (⟨n :: s.visited, n :: s.onStack, s.inCycle⟩ : DfsState) < f := by
          omega
        have hf : 0 < f := by omega
        by_cases hnu2 : u = n
        · subst hnu2
          by_cases huveq : v = u
          · subst huveq
            have h := fold_reach_mark g f v (adj g v)
              ⟨v :: s.visited, v :: s.onStack, s.inCycle⟩ v hu
              (List.mem_cons_self _ _) (List.mem_cons_self _ _)
            exact ⟨h.1, h.2⟩
          · have hvfin : v ∈ ((adj g u).foldl (dfsStep (dfs g f) u)
                ⟨u :: s.visited, u :: s.onStack, s.inCycle⟩).visited :=
              fold_visits_all g f u hf (adj g u) _ v hu
            refine fold_first_event g f u (fun st => v ∈ st.visited)
              (fun st st' hveq hb => by
                show v ∈ st'.visited
                rw [← hveq]
                exact hb)
              (fun st => u ∈ st.visited ∧ u ∈ st.onStack ∧
                unvisitedCount g st < f)
              ?_ u v (adj g u) ?_
              ⟨u :: s.visited, u :: s.onStack, s.inCycle⟩
              ⟨List.mem_cons_self _ _, List.mem_cons_self _ _, hcnt1⟩
              ?_ hvfin
            · rintro acc m ⟨h1, h2, h3⟩
              have hk := @dfsStep_stack_keep (dfs g f) u
                (fun m' st y hy hy' => dfs_stack_keep g f m' st y hy hy')
                acc m u h1 h2
              exact ⟨hk.1, hk.2,
                lt_of_le_of_lt (dfsStep_cnt_le g f u acc m) h3⟩
            · rintro m _ acc' ⟨h1, h2, h3⟩ hbe hbv'
              exact dfs_mark g u v hv f m acc' h3 h1 h2 hbe hbv'
            · intro hmem
              rcases List.mem_cons.mp hmem with he | hmem'
              · exact huveq he
              · exact hvv hmem'
        · by_cases hnv2 : v = n
          · subst hnv2
            have hufin : u ∈ ((adj g v).foldl (dfsStep (dfs g f) v)
                ⟨v :: s.visited, v :: s.onStack, s.inCycle⟩).visited :=
              fold_visits_all g f v hf (adj g v) _ u hv
            have h := fold_first_event g f v (fun st => u ∈ st.visited)
              (fun st st' hveq hb => by
                show u ∈ st'.visited
                rw [← hveq]
                exact hb)
              (fun st => v ∈ st.visited ∧ v ∈ st.onStack ∧
                unvisitedCount g st < f)
              (by
                rintro acc m ⟨h1, h2, h3⟩
                have hk := @dfsStep_stack_keep (dfs g f) v
                  (fun m' st y hy hy' => dfs_stack_keep g f m' st y hy hy')
                  acc m v h1 h2
                exact ⟨hk.1, hk.2,
                  lt_of_le_of_lt (dfsStep_cnt_le g f v acc m) h3⟩)
              v u (adj g v)
              (by
                rintro m _ acc' ⟨h1, h2, h3⟩ hbe hbv'
                exact dfs_mark g v u hu f m acc' h3 h1 h2 hbe hbv')
              ⟨v :: s.visited, v :: s.onStack, s.inCycle⟩
              ⟨List.mem_cons_self _ _, List.mem_cons_self _ _, hcnt1⟩
              (by
                intro hmem
                rcases List.mem_cons.mp hmem with he | hmem'
                · exact hnu2 he
                · exact huv hmem')
              hufin
            exact ⟨h.2, h.1⟩
          · refine fold_first_event g f n
              (fun st => u ∈ st.visited ∨ v ∈ st.visited)
              (fun st st' hveq hb => by
                show u ∈ st'.visited ∨ v ∈ st'.visited
                rw [← hveq]
                exact hb)
              (fun st => unvisitedCount g st < f)
              (fun acc m h3 => lt_of_le_of_lt (dfsStep_cnt_le g f n acc m) h3)
              u v (adj g n) ?_
              ⟨n :: s.visited, n :: s.onStack, s.inCycle⟩
              hcnt1 ?_ hdisj
            · rintro m _ acc' h3 hnE hE
              exact ih m acc' h3 (fun hc => hnE (Or.inl hc))
                (fun hc => hnE (Or.inr hc)) hE
            · intro hmem
              rcases hmem with h | h
              · rcases List.mem_cons.mp h with he | hmem'
                · exact hnu2 he
                · exact huv hmem'
              · rcases List.mem_cons.mp h with he | hmem'
                · exact hnv2 he
                · exact hvv hmem'
      · rw [adj_nil_of_not_univ hnu] at hdisj
        simp only [List.foldl_nil] at hdisj
        rcases hdisj with h | h
        · rcases List.mem_cons.mp h with he | hm
          · exact absurd (he ▸ huk) hnu
          · exact absurd hm huv
        · rcases List.mem_cons.mp h with he | hm
          · exact absurd (he ▸ hvk) hnu
          · exact absurd hm hvv

/-- Cycle detection finds every mutual (or self-) dependency: if `g` has
the edges `u → v` and `v → u`, both endpoints are in the returned set. -/
theorem detect_cycles_mutual (g : List (String × List String))
    (u v : String) (hu : v ∈ adj g u) (hv : u ∈ adj g v) :
    u ∈ detect_cycles g ∧ v ∈ detect_cycles g := by
  have hfuel : ∀ s : DfsState,
      unvisitedCount g s < (univ g).length + 1 :=
    fun s => Nat.lt_succ_of_le (cnt_le_univ_length g s)
  have hstepvis : ∀ (acc : DfsState) (m x : String), x ∈ acc.visited →
      x ∈ (if m ∈ acc.visited then acc
           else dfs g ((univ g).length + 1) m acc).visited := by
    intro acc m x hx
    split_ifs with h
    · exact hx
    · exact dfs_vis_mono g _ m acc x hx
  have hstepcyc : ∀ (acc : DfsState) (m x : String), x ∈ acc.inCycle →
      x ∈ (if m ∈ acc.visited then acc
           else dfs g ((univ g).length + 1) m acc).inCycle := by
    intro acc m x hx
    split_ifs with h
    · exact hx
    · exact dfs_cyc_mono g _ m acc x hx
  have hvisit : ∀ (l : List String) (acc : DfsState), u ∈ l →
      u ∈ (l.foldl (fun s node => if node ∈ s.visited then s
            else dfs g ((univ g).length + 1) node s) acc).visited := by
    intro l
    induction l with
    | nil => intro acc h; cases h
    | cons x l ih =>
      intro acc h
      rcases List.mem_cons.mp h with rfl | h'
      · simp only [List.foldl_cons]
        refine foldl_preserve
          (fun s node => if node ∈ s.visited then s
            else dfs g ((univ g).length + 1) node s)
          (fun st => u ∈ st.visited) l
          (if u ∈ acc.visited then acc
            else dfs g ((univ g).length + 1) u acc) ?_ ?_
        · show u ∈ (if u ∈ acc.visited then acc
            else dfs g ((univ g).length + 1) u acc).visited
          split_ifs with hx
          · exact hx
          · exact dfs_visits g _ u acc (Nat.succ_pos _)
        · exact fun acc' m _ hacc => hstepvis acc' m u hacc
      · simp only [List.foldl_cons]
        exact ih _ h'
  have hinv : ∀ (l : List String) (acc : DfsState),
      ((u ∈ acc.inCycle ∧ v ∈ acc.inCycle) ∨
        (¬ u ∈ acc.visited ∧ ¬ v ∈ acc.visited)) →
      ((u ∈ (l.foldl (fun s node => if node ∈ s.visited then s
            else dfs g ((univ g).length + 1) node s) acc).inCycle ∧
        v ∈ (l.foldl (fun s node => if node ∈ s.visited then s
            else dfs g ((univ g).length + 1) node s) acc).inCycle) ∨
       (¬ u ∈ (l.foldl (fun s node => if node ∈ s.visited then s
            else dfs g ((univ g).length + 1) node s) acc).visited ∧
        ¬ v ∈ (l.foldl (fun s node => if node ∈ s.visited then s
            else dfs g ((univ g).length + 1) node s) acc).visited)) := by
    intro l acc h
    refine foldl_preserve
      (fun s node => if node ∈ s.visited then s
        else dfs g ((univ g).length + 1) node s)
      (fun st => (u ∈ st.inCycle ∧ v ∈ st.inCycle) ∨
        (¬ u ∈ st.visited ∧ ¬ v ∈ st.visited)) l acc h ?_
    intro acc' m _ hacc
    rcases hacc with hmark | ⟨h1, h2⟩
    · exact Or.inl ⟨hstepcyc acc' m u hmark.1, hstepcyc acc' m v hmark.2⟩
    · show (u ∈ (if m ∈ acc'.visited then acc'
          else dfs g ((univ g).length + 1) m acc').inCycle ∧
        v ∈ (if m ∈ acc'.visited then acc'
          else dfs g ((univ g).length + 1) m acc').inCycle) ∨
        (¬ u ∈ (if m ∈ acc'.visited then acc'
          else dfs g ((univ g).length + 1) m acc').visited ∧
        ¬ v ∈ (if m ∈ acc'.visited then acc'
          else dfs g ((univ g).length + 1) m acc').visited)
      split_ifs with hm
      · exact Or.inr ⟨h1, h2⟩
      · by_cases hd : u ∈ (dfs g ((univ g).length + 1) m acc').visited ∨
            v ∈ (dfs g ((univ g).length + 1) m acc').visited
        · exact Or.inl
            (dfs_mark_main g u v hu hv _ m acc' (hfuel acc') h1 h2 hd)
        · exact Or.inr ⟨fun hc => hd (Or.inl hc), fun hc => hd (Or.inr hc)⟩
  have hdc : detect_cycles g =
      ((g.map Prod.fst).foldl (fun s node => if node ∈ s.visited then s
        else dfs g ((univ g).length + 1) node s)
        ⟨[], [], []⟩).inCycle := rfl
  rw [hdc]
  have hfin := hinv (g.map Prod.fst) ⟨[], [], []⟩
    (Or.inr ⟨by simp, by simp⟩)
  have huvis := hvisit (g.map Prod.fst) ⟨[], [], []⟩ (adj_key_mem hu)
  rcases hfin with hmark | ⟨h1, _⟩
  · exact hmark
  · exact absurd huvis h1

/-! ## Adjacency of the built graph (claim C6) -/

theorem seeded_fst (ts' : List Task)
    (gc0 : List (String × List String) × List (String × Nat)) :
    (ts'.foldl
      (fun gc t => (dictSet gc.1 (iid t) [], dictSet gc.2 (iid t) 0)) gc0).1 =
    ts'.foldl (fun gg t => dictSet gg (iid t) []) gc0.1 := by
  induction ts' generalizing gc0 with
  | nil => rfl
  | cons t ts ih => simp only [List.foldl_cons]; exact ih _

theorem filled_fst (ts' : List Task)
    (gc0 : List (String × List String) × List (String × Nat)) :
    (ts'.foldl
      (fun gc t =>
        (dictSet gc.1 (iid t) (effDeps t),
         (effDeps t).foldl (fun c' d => dictSet c' d (dictGetD c' d 0 + 1)) gc.2))
      gc0).1 =
    ts'.foldl (fun gg t => dictSet gg (iid t) (effDeps t)) gc0.1 := by
  induction ts' generalizing gc0 with
  | nil => rfl
  | cons t ts ih => simp only [List.foldl_cons]; exact ih _

theorem fold_dictSet_lookup_untouched {α : Type} (f : Task → α) (k : String) :
    ∀ (ts : List Task) (g0 : List (String × α)),
      (∀ t' ∈ ts, iid t' ≠ k) →
      (ts.foldl (fun gg t' => dictSet gg (iid t') (f t')) g0).lookup k =
        g0.lookup k := by
  intro ts
  induction ts with
  | nil => intro g0 _; rfl
  | cons t0 ts ih =>
    intro g0 h
    simp only [List.foldl_cons]
    rw [ih _ (fun t' ht' => h t' (List.mem_cons_of_mem t0 ht')),
      lookup_dictSet,
      if_neg (fun he => h t0 (List.mem_cons_self t0 ts) he.symm)]

theorem fold_dictSet_lookup {α : Type} (f : Task → α) :
    ∀ (ts : List Task) (g0 : List (String × α)) (t : Task),
      t ∈ ts → (∀ t' ∈ ts, iid t' = iid t → f t' = f t) →
      (ts.foldl (fun gg t' => dictSet gg (iid t') (f t')) g0).lookup (iid t) =
        some (f t) := by
  intro ts
  induction ts with
  | nil => intro g0 t ht; cases ht
  | cons t0 ts ih =>
    intro g0 t ht hagree
    simp only [List.foldl_cons]
    by_cases hmem : ∃ t'' ∈ ts, iid t'' = iid t
    · obtain ⟨t'', ht'', hiid⟩ := hmem
      have hrec := ih (dictSet g0 (iid t0) (f t0)) t'' ht''
        (fun t' ht' he => by
          rw [hagree t' (List.mem_cons_of_mem t0 ht') (he.trans hiid),
            hagree t'' (List.mem_cons_of_mem t0 ht'') hiid])
      rw [hiid] at hrec
      rw [hrec, hagree t'' (List.mem_cons_of_mem t0 ht'') hiid]
    · have hts : ∀ t' ∈ ts, iid t' ≠ iid t :=
        fun t' ht' he => hmem ⟨t', ht', he⟩
      have hiid0 : iid t0 = iid t := by
        rcases List.mem_cons.mp ht with rfl | hmem2
        · rfl
        · exact absurd rfl (hts t hmem2)
      rw [fold_dictSet_lookup_untouched f (iid t) ts _ hts, lookup_dictSet,
        if_pos hiid0.symm, hagree t0 (List.mem_cons_self t0 ts) hiid0]

theorem assignedIds_getElem (tasks : List Task) (i : Nat)
    (hi : i < tasks.length) (hi2 : i < (assignedIds tasks).length) :
    (assignedIds tasks)[i] = assignId i tasks[i] := by
  unfold assignedIds
  rw [List.getElem_map, List.getElem_enum]

theorem iid_mutate_getElem (tasks : List Task) (i : Nat)
    (hi : i < tasks.length) (hi' : i < (mutateTasks tasks).length) :
    iid (mutateTasks tasks)[i] = assignId i tasks[i] := by
  rw [mutateTasks_getElem tasks i hi hi']
  rfl

theorem effDeps_mutate_getElem (tasks : List Task) (i : Nat)
    (hi : i < tasks.length) (hi' : i < (mutateTasks tasks).length) :
    effDeps (mutateTasks tasks)[i] = effDeps tasks[i] := by
  rw [mutateTasks_getElem tasks i hi hi']
  rfl

theorem build_graph_lookup (tasks : List Task)
    (hnd : (assignedIds tasks).Nodup) (i : Nat) (hi : i < tasks.length) :
    ((build_dependency_graph tasks).1).lookup (assignId i tasks[i]) =
      some (effDeps tasks[i]) := by
  have hi' : i < (mutateTasks tasks).length := by
    rw [mutateTasks_length]; exact hi
  have hkey : assignId i tasks[i] = iid (mutateTasks tasks)[i] :=
    (iid_mutate_getElem tasks i hi hi').symm
  have hval : effDeps tasks[i] = effDeps (mutateTasks tasks)[i] :=
    (effDeps_mutate_getElem tasks i hi hi').symm
  rw [hkey, hval]
  unfold build_dependency_graph
  simp only
  rw [filled_fst, seeded_fst]
  apply fold_dictSet_lookup effDeps (mutateTasks tasks) _
    (mutateTasks tasks)[i] (List.getElem_mem hi')
  intro t' ht' he
  obtain ⟨j, hj', ht'e⟩ := List.mem_iff_getElem.mp ht'
  have hj : j < tasks.length := by
    rw [mutateTasks_length] at hj'; exact hj'
  subst ht'e
  have hij : j = i := by
    have hlj : j < (assignedIds tasks).length := by
      rw [assignedIds_length]; exact hj
    have hli : i < (assignedIds tasks).length := by
      rw [assignedIds_length]; exact hi
    have h1 : (assignedIds tasks).get ⟨j, hlj⟩ =
        (assignedIds tasks).get ⟨i, hli⟩ := by
      simp only [List.get_eq_getElem]
      rw [assignedIds_getElem tasks j hj, assignedIds_getElem tasks i hi]
      rw [← iid_mutate_getElem tasks j hj hj',
        ← iid_mutate_getElem tasks i hi hi']
      exact he
    have h3 : (⟨j, hlj⟩ : Fin (assignedIds tasks).length) = ⟨i, hli⟩ :=
      List.nodup_iff_injective_get.mp hnd h1
    exact congrArg Fin.val h3
  subst hij
  rfl

/-- When the task's internal id is in the supplied cycle set, the scored
record carries `has_cycle = true` and the circular-dependency phrase among
its explanation bits. -/
theorem score_task_ok_cycle {t : Task} {s : String}
    {dc : List (String × Nat)} {w : Option Weights} {cyc : List String}
    {today : Int} {st : ScoredTask} {tid : String}
    (hid : t.internal_id = some tid) (hmem : tid ∈ cyc)
    (h : score_task t s dc w (some cyc) today = .ok st) :
    st.task = t ∧ st.has_cycle = true ∧
    ∃ bits, st.explanation = String.intercalate "; " bits ∧
      "involved in a circular dependency" ∈ bits := by
  unfold score_task at h
  cases hu : compute_urgency_score t.due_date today with
  | error e => rw [hu] at h; simp [bind, Except.bind] at h
  | ok u =>
    rw [hu] at h
    simp only [bind, Except.bind] at h
    cases he : compute_effort_score t.estimated_hours with
    | error e => rw [he] at h; simp at h
    | ok f =>
      rw [he] at h
      simp only [pure, Except.pure, hid] at h
      have hst := Except.ok.inj h
      subst hst
      refine ⟨rfl, by simp [hmem], ?_⟩
      show ∃ bits,
        String.intercalate "; "
            (explanationBits _ _ _ _ _ (decide (tid ∈ cyc))) =
          String.intercalate "; " bits ∧
        "involved in a circular dependency" ∈ bits
      have hfl : decide (tid ∈ cyc) = true := by simp [hmem]
      rw [hfl]
      exact ⟨_, rfl, by simp [explanationBits]⟩

/-- Index-level core of claim C6: under unique internal ids, a task in a
mutual dependency (or self-loop, `i = j`) yields an output record flagged
with the cycle and carrying the circular-dependency phrase. -/
theorem cycle_flagging_one {tasks : List Task} {strategy : String}
    {weights : Option Weights} {today : Int} {outs : List OutRec}
    {ts' : List Task} {i j : Nat} (hi : i < tasks.length)
    (hj : j < tasks.length) (hnd : (assignedIds tasks).Nodup)
    (hij : assignId j tasks[j] ∈ effDeps tasks[i])
    (hji : assignId i tasks[i] ∈ effDeps tasks[j])
    (hok : analyze_tasks tasks strategy weights today = .ok (outs, ts')) :
    ∃ r ∈ outs, r.task = { tasks[i] with internal_id := none } ∧
      r.has_cycle = true ∧
      ∃ bits, r.explanation = String.intercalate "; " bits ∧
        "involved in a circular dependency" ∈ bits := by
  rcases analyze_ok_elim hok with ⟨hemp, _, _⟩ | h
  · rw [hemp] at hi; exact absurd hi (by simp)
  obtain ⟨_, scored, sorted, hpre, hsort, houts, _⟩ := h
  -- the built graph contains the mutual edge
  have hadj_i : assignId j tasks[j] ∈
      adj (build_dependency_graph tasks).1 (assignId i tasks[i]) := by
    unfold adj dictGetD
    rw [build_graph_lookup tasks hnd i hi]
    exact hij
  have hadj_j : assignId i tasks[i] ∈
      adj (build_dependency_graph tasks).1 (assignId j tasks[j]) := by
    unfold adj dictGetD
    rw [build_graph_lookup tasks hnd j hj]
    exact hji
  have hcyc := detect_cycles_mutual (build_dependency_graph tasks).1
    (assignId i tasks[i]) (assignId j tasks[j]) hadj_i hadj_j
  -- the scored record at index i
  have hpre' : mapExcept (fun t => score_task t strategy
      (build_dependency_graph tasks).2.1 weights
      (some (detect_cycles (build_dependency_graph tasks).1)) today)
      (mutateTasks tasks) = .ok scored := hpre
  have hleni : i < (mutateTasks tasks).length := by
    rw [mutateTasks_length]; exact hi
  have hilen' : i < scored.length := by
    rw [mapExcept_ok_length hpre', mutateTasks_length]; exact hi
  have hsc := mapExcept_ok_get hpre' i hleni hilen'
  rw [List.get_eq_getElem, mutateTasks_getElem tasks i hi hleni] at hsc
  have hfields := score_task_ok_cycle rfl hcyc.1 hsc
  obtain ⟨htask, hflag, bits, hexp, hbit⟩ := hfields
  refine ⟨toOut (scored.get ⟨i, hilen'⟩), ?_, ?_, ?_, bits, ?_, hbit⟩
  · rw [houts]
    exact List.mem_map_of_mem toOut
      ((pySort_mem hsort _).mpr (List.get_mem scored i hilen'))
  · show { (scored.get ⟨i, hilen'⟩).task with internal_id := none } = _
    rw [htask]
  · exact hflag
  · exact hexp

set_option maxRecDepth 4000 in
/-- Full evaluation of `analyze_tasks` on the mutual-cycle batch. -/
theorem analyze_c6_eval :
    analyze_tasks [c6A, c6B] "smart_balance" none 0 =
      .ok ([c6OutA, c6OutB], [c6MutA, c6MutB]) := by
  unfold c6OutA c6OutB c6MutA c6MutB
  simp [analyze_tasks, preScored, build_dependency_graph, mutateTasks, assignId,
    iid, effDeps, dictSet, dictGetD, detect_cycles, univ, dfs, dfsStep, adj,
    score_task,
    compute_urgency_score, safe_days_until_due, compute_effort_score,
    normalize_importance, intCoercion, score_smart_balance, SMART_WEIGHTS,
    pyRound2, pyNumStr, explanationBits,
    pySort, pyInsert, cmpKey, cmpPair, skey, sortKeyImp, pyCmpImp, toOut,
    bind, Except.bind, pure, Except.pure, List.lookup, clamp, max_def, min_def,
    round_eq, c6A, c6B, List.enum, List.enumFrom, String.intercalate,
    mapExcept]
  norm_num [pySort, pyInsert, cmpKey, cmpPair, skey, sortKeyImp, pyCmpImp,
    bind, Except.bind, toOut, String.intercalate, String.intercalate.go]
  try decide

/-- **C6** (amended) — provided the assigned internal ids of the batch are
pairwise distinct, whenever tasks `i` and `j` list each other's internal id
among their dependencies (`i = j` gives the self-loop case) and `analyze`
returns, the output holds, for each of the two tasks, a record carrying
that task's fields with `has_cycle = true` and the circular-dependency
phrase among its `"; "`-joined explanation bits.  (Without the
distinctness proviso the claim fails: a later task re-using an id
overwrites the adjacency entry, see the counterexample.) -/
theorem cycle_flagging (tasks : List Task) (strategy : String)
    (weights : Option Weights) (today : Int) (outs : List OutRec)
    (ts' : List Task) (i j : Nat) (hi : i < tasks.length)
    (hj : j < tasks.length) (hnd : (assignedIds tasks).Nodup)
    (hij : assignId j tasks[j] ∈ effDeps tasks[i])
    (hji : assignId i tasks[i] ∈ effDeps tasks[j])
    (hok : analyze_tasks tasks strategy weights today = .ok (outs, ts')) :
    (∃ r ∈ outs, r.task = { tasks[i] with internal_id := none } ∧
      r.has_cycle = true ∧
      ∃ bits, r.explanation = String.intercalate "; " bits ∧
        "involved in a circular dependency" ∈ bits) ∧
    (∃ r ∈ outs, r.task = { tasks[j] with internal_id := none } ∧
      r.has_cycle = true ∧
      ∃ bits, r.explanation = String.intercalate "; " bits ∧
        "involved in a circular dependency" ∈ bits) :=
  ⟨cycle_flagging_one hi hj hnd hij hji hok,
   cycle_flagging_one hj hi hnd hji hij hok⟩

/-- **C6 counterexample** — in the batch `[c6A, c6B, c6C]` tasks 0 and 1
list each other as dependencies exactly as the claim requires, yet every
output record has `has_cycle = false`: the duplicated id `"a"` of `c6C`
overwrites task 0's adjacency entry, hiding the cycle. -/
theorem cycle_flagging_cex :
    assignId 1 ([c6A, c6B, c6C] : List Task)[1] ∈
      effDeps ([c6A, c6B, c6C] : List Task)[0] ∧
    assignId 0 ([c6A, c6B, c6C] : List Task)[0] ∈
      effDeps ([c6A, c6B, c6C] : List Task)[1] ∧
    Except.map (fun pr => pr.1.map (fun r : OutRec => (r.task.id, r.has_cycle)))
      (analyze_tasks [c6A, c6B, c6C] "smart_balance" none 0) =
      .ok [(some "a", false), (some "b", false), (some "a", false)] := by
  refine ⟨by decide, by decide, ?_⟩
  simp [analyze_tasks, preScored, build_dependency_graph, mutateTasks, assignId,
    iid, effDeps, dictSet, dictGetD, detect_cycles, univ, dfs, dfsStep, adj,
    score_task,
    compute_urgency_score, safe_days_until_due, compute_effort_score,
    normalize_importance, intCoercion, score_smart_balance, SMART_WEIGHTS,
    pyRound2, pyNumStr, explanationBits,
    pySort, pyInsert, cmpKey, cmpPair, skey, sortKeyImp, pyCmpImp, toOut,
    bind, Except.bind, pure, Except.pure, List.lookup, clamp, max_def, min_def,
    round_eq, c6A, c6B, c6C, List.enum, List.enumFrom, String.intercalate,
    mapExcept, Except.map]

/-- **C6 witness** — the two-task mutual-cycle batch `[c6A, c6B]`
satisfies every hypothesis and both output records are flagged. -/
theorem cycle_flagging_witness :
    (0 : Nat) < ([c6A, c6B] : List Task).length ∧
    (1 : Nat) < ([c6A, c6B] : List Task).length ∧
    (assignedIds [c6A, c6B]).Nodup ∧
    assignId 1 ([c6A, c6B] : List Task)[1] ∈
      effDeps ([c6A, c6B] : List Task)[0] ∧
    assignId 0 ([c6A, c6B] : List Task)[0] ∈
      effDeps ([c6A, c6B] : List Task)[1] ∧
    ((∃ r ∈ [c6OutA, c6OutB],
        r.task = { ([c6A, c6B] : List Task)[0] with internal_id := none } ∧
        r.has_cycle = true ∧
        ∃ bits, r.explanation = String.intercalate "; " bits ∧
          "involved in a circular dependency" ∈ bits) ∧
     (∃ r ∈ [c6OutA, c6OutB],
        r.task = { ([c6A, c6B] : List Task)[1] with internal_id := none } ∧
        r.has_cycle = true ∧
        ∃ bits, r.explanation = String.intercalate "; " bits ∧
          "involved in a circular dependency" ∈ bits)) :=
  ⟨by decide, by decide, by decide, by decide, by decide,
   cycle_flagging [c6A, c6B] "smart_balance" none 0 [c6OutA, c6OutB]
     [c6MutA, c6MutB] 0 1 (by decide) (by decide) (by decide) (by decide)
     (by decide) analyze_c6_eval⟩

end TaskAnalyzer
